import Mathlib

/-!
# Verification of the vCard contact-deduplication engine

A shallow embedding, in Lean 4, of the entity-resolution core of
`vcard_merger_v5.py`: name canonicalization, nickname resolution, Soundex,
email/phone normalization, pairwise confidence scoring, bucketed candidate
generation with BFS clustering, and record merging.  The embedding works on
the ASCII fragment of Python strings (every name, key and constant in the
program is ASCII): Python `str.lower`/`str.upper`/`\w`/`\s` are modelled by
the corresponding ASCII character predicates.  Python floats that only carry
exact small rationals (difflib ratios, integer averages) are modelled
exactly with natural-number arithmetic.
-/

set_option maxRecDepth 20000

namespace ContactDedup

/-! ## Character and string primitives (Python ASCII semantics) -/

/-- Python `\s` character class: space, tab, newline, carriage return,
vertical tab, form feed. -/
def pyIsSpace (c : Char) : Bool :=
  c = ' ' || c = '\t' || c = '\n' || c = '\x0d' || c = '\x0b' || c = '\x0c'

/-- Python `\w` character class restricted to ASCII: alphanumeric or underscore. -/
def pyIsWord (c : Char) : Bool :=
  c.isAlphanum || c = '_'

/-- Python `str.lower` on ASCII data. -/
def lowerStr (s : String) : String :=
  ⟨s.data.map Char.toLower⟩

/-- Python `str.split()` with no separator: split on whitespace runs,
discarding empty pieces.  `acc` accumulates the current word reversed. -/
def splitWsAux : List Char → List Char → List (List Char)
  | [], acc => if acc.isEmpty then [] else [acc.reverse]
  | c :: cs, acc =>
    if pyIsSpace c then
      if acc.isEmpty then splitWsAux cs [] else acc.reverse :: splitWsAux cs []
    else splitWsAux cs (c :: acc)

def splitWs (cs : List Char) : List (List Char) :=
  splitWsAux cs []

/-- `' '.join(words)`. -/
def joinSpace : List (List Char) → List Char
  | [] => []
  | [w] => w
  | w :: ws => w ++ ' ' :: joinSpace ws

/-- `' '.join(s.split())` — whitespace collapsing as done in `parse_name_parts`. -/
def collapseWs (cs : List Char) : List Char :=
  joinSpace (splitWs cs)

/-- Python `str.strip()`. -/
def pyStrip (cs : List Char) : List Char :=
  ((cs.dropWhile pyIsSpace).reverse.dropWhile pyIsSpace).reverse

/-! ## Nickname resolution (`NICKNAME_MAP`, `CANONICAL_NAMES`, `resolve_nickname`) -/

/-- The `NICKNAME_MAP` dict literal, in source order (it has no duplicate
keys, so the Python dict holds exactly these pairs in this order). -/
def NICKNAME_MAP : List (String × String) := [
  ("bob", "robert"), ("rob", "robert"), ("bobby", "robert"), ("robbie", "robert"),
  ("bert", "robert"), ("bill", "william"), ("will", "william"), ("billy", "william"),
  ("willy", "william"), ("liam", "william"), ("mike", "michael"), ("mick", "michael"),
  ("mickey", "michael"), ("mikey", "michael"), ("jim", "james"), ("jimmy", "james"),
  ("jamie", "james"), ("joe", "joseph"), ("joey", "joseph"), ("tom", "thomas"),
  ("tommy", "thomas"), ("thom", "thomas"), ("dick", "richard"), ("rick", "richard"),
  ("ricky", "richard"), ("rich", "richard"), ("dan", "daniel"), ("danny", "daniel"),
  ("dave", "david"), ("davy", "david"), ("steve", "steven"), ("stevie", "steven"),
  ("chris", "christopher"), ("kit", "christopher"), ("matt", "matthew"), ("matty", "matthew"),
  ("tony", "anthony"), ("ant", "anthony"), ("andy", "andrew"), ("drew", "andrew"),
  ("nick", "nicholas"), ("nicky", "nicholas"), ("ed", "edward"), ("eddie", "edward"),
  ("ted", "edward"), ("teddy", "edward"), ("al", "albert"), ("albie", "albert"),
  ("alex", "alexander"), ("xander", "alexander"), ("ben", "benjamin"), ("benny", "benjamin"),
  ("benji", "benjamin"), ("chuck", "charles"), ("charlie", "charles"), ("chas", "charles"),
  ("frank", "francis"), ("frankie", "francis"), ("fran", "francis"), ("fred", "frederick"),
  ("freddy", "frederick"), ("freddie", "frederick"), ("greg", "gregory"), ("hank", "henry"),
  ("harry", "henry"), ("hal", "henry"), ("jack", "john"), ("johnny", "john"),
  ("jon", "john"), ("jake", "jacob"), ("jeff", "jeffrey"), ("geoff", "geoffrey"),
  ("jerry", "gerald"), ("gerry", "gerald"), ("josh", "joshua"), ("larry", "lawrence"),
  ("lars", "lawrence"), ("leo", "leonard"), ("lenny", "leonard"), ("louie", "louis"),
  ("lou", "louis"), ("mark", "marcus"), ("marty", "martin"), ("max", "maxwell"),
  ("maxie", "maxwell"), ("nate", "nathan"), ("nathaniel", "nathan"), ("pat", "patrick"),
  ("paddy", "patrick"), ("pete", "peter"), ("petey", "peter"), ("phil", "philip"),
  ("pip", "philip"), ("ray", "raymond"), ("ron", "ronald"), ("ronnie", "ronald"),
  ("sam", "samuel"), ("sammy", "samuel"), ("stan", "stanley"), ("tim", "timothy"),
  ("timmy", "timothy"), ("vic", "victor"), ("wally", "walter"), ("walt", "walter"),
  ("zach", "zachary"), ("zack", "zachary"), ("beth", "elizabeth"), ("liz", "elizabeth"),
  ("lizzy", "elizabeth"), ("betty", "elizabeth"), ("libby", "elizabeth"), ("eliza", "elizabeth"),
  ("lisa", "elizabeth"), ("ellie", "elizabeth"), ("kate", "katherine"), ("kathy", "katherine"),
  ("katie", "katherine"), ("cathy", "catherine"), ("kat", "katherine"), ("kitty", "katherine"),
  ("jenny", "jennifer"), ("jen", "jennifer"), ("jenn", "jennifer"), ("sue", "susan"),
  ("susie", "susan"), ("suzy", "susan"), ("maggie", "margaret"), ("meg", "margaret"),
  ("peggy", "margaret"), ("marge", "margaret"), ("margie", "margaret"), ("madge", "margaret"),
  ("greta", "margaret"), ("pam", "pamela"), ("patty", "patricia"), ("trish", "patricia"),
  ("tricia", "patricia"), ("barb", "barbara"), ("barbie", "barbara"), ("babs", "barbara"),
  ("deb", "deborah"), ("debbie", "deborah"), ("debby", "deborah"), ("becky", "rebecca"),
  ("becca", "rebecca"), ("vicky", "victoria"), ("vicki", "victoria"), ("tori", "victoria"),
  ("chrissy", "christine"), ("tina", "christine"), ("lexie", "alexandra"), ("sandy", "sandra"),
  ("mandy", "amanda"), ("angie", "angela"), ("angel", "angela"), ("annie", "anne"),
  ("ann", "anne"), ("anna", "anne"), ("nancy", "anne"), ("bea", "beatrice"),
  ("trixie", "beatrice"), ("carol", "caroline"), ("carrie", "caroline"), ("cindy", "cynthia"),
  ("connie", "constance"), ("di", "diana"), ("diane", "diana"), ("donna", "madonna"),
  ("dot", "dorothy"), ("dottie", "dorothy"), ("ella", "eleanor"), ("nell", "eleanor"),
  ("nelly", "eleanor"), ("frannie", "frances"), ("francie", "frances"), ("gail", "abigail"),
  ("abby", "abigail"), ("ginny", "virginia"), ("ginger", "virginia"), ("grace", "gracie"),
  ("jan", "janet"), ("janice", "janet"), ("jo", "josephine"), ("josie", "josephine"),
  ("judy", "judith"), ("judi", "judith"), ("jules", "julia"), ("julie", "julia"),
  ("kay", "katherine"), ("kim", "kimberly"), ("kimmy", "kimberly"), ("laurie", "laura"),
  ("lori", "laura"), ("linda", "belinda"), ("lindy", "belinda"), ("lucy", "lucille"),
  ("lynn", "linda"), ("maddie", "madeline"), ("maddy", "madeline"), ("mary", "marie"),
  ("maria", "mary"), ("molly", "mary"), ("polly", "mary"), ("mel", "melanie"),
  ("melinda", "melanie"), ("mia", "maria"), ("millie", "millicent"), ("mildred", "millicent"),
  ("minnie", "wilhelmina"), ("missy", "melissa"), ("nan", "nancy"), ("nat", "natalie"),
  ("nicki", "nicole"), ("nikki", "nicole"), ("penny", "penelope"), ("paula", "pauline"),
  ("rose", "rosemary"), ("rosie", "rosemary"), ("sally", "sarah"), ("sadie", "sarah"),
  ("samantha", "sam"), ("shelly", "michelle"), ("shell", "michelle"), ("stacy", "anastasia"),
  ("terri", "theresa"), ("terry", "theresa"), ("tess", "theresa"), ("tiff", "tiffany"),
  ("val", "valerie"), ("wendy", "gwendolyn"), ("gwen", "gwendolyn")]

/-- The sequence of insertions building `CANONICAL_NAMES`: for each pair,
first `nickname -> canonical`, then `canonical -> canonical`.  Later
insertions overwrite earlier ones, which the lookup below models by
searching the reversed write list. -/
def canonicalWrites : List (String × String) :=
  NICKNAME_MAP.foldr (fun p acc => (p.1, p.2) :: (p.2, p.2) :: acc) []

/-- `CANONICAL_NAMES.get(k)`: the value of the last write to key `k`. -/
def canonicalLookup (k : String) : Option String :=
  (canonicalWrites.reverse.find? (fun p => p.1 == k)).map (·.2)

/-- `resolve_nickname` from the source: empty string maps to empty string,
otherwise look up the lowercased name, defaulting to it. -/
def resolve_nickname (name : String) : String :=
  if name = "" then ""
  else (canonicalLookup (lowerStr name)).getD (lowerStr name)

/-! ## Soundex -/

/-- The Soundex letter-to-digit table (`mapping` in the source);
`none` models Python's `''` default for unmapped characters. -/
def soundexMap (c : Char) : Option Char :=
  if c = 'B' || c = 'F' || c = 'P' || c = 'V' then some '1'
  else if c = 'C' || c = 'G' || c = 'J' || c = 'K' || c = 'Q' || c = 'S'
       || c = 'X' || c = 'Z' then some '2'
  else if c = 'D' || c = 'T' then some '3'
  else if c = 'L' then some '4'
  else if c = 'M' || c = 'N' then some '5'
  else if c = 'R' then some '6'
  else if c = 'A' || c = 'E' || c = 'I' || c = 'O' || c = 'U' || c = 'H'
       || c = 'W' || c = 'Y' then some '0'
  else none

/-- The encoding loop of `soundex` over `name[1:]`, carrying `prev_code`. -/
def soundexLoop : List Char → Char → List Char
  | [], _ => []
  | c :: cs, prev =>
    match soundexMap c with
    | none => soundexLoop cs prev
    | some d =>
      if d ≠ '0' && d ≠ prev then d :: soundexLoop cs d
      else if d = '0' then soundexLoop cs '0'
      else soundexLoop cs prev

/-- `soundex` from the source: uppercase, keep letters, encode, pad/truncate
to four characters; empty when no letters remain. -/
def soundex (s : String) : String :=
  let name := (s.data.map Char.toUpper).filter Char.isAlpha
  match name with
  | [] => ""
  | c :: rest =>
    let prev := (soundexMap c).getD '0'
    ⟨((c :: soundexLoop rest prev) ++ ['0', '0', '0']).take 4⟩

/-! ## Phone normalization -/

/-- The last `n` characters of a list (`xs[-n:]` for `n ≤ len`). -/
def lastChars (n : Nat) (cs : List Char) : List Char :=
  cs.drop (cs.length - n)

/-- `normalize_phone` from the source: keep digits, drop a leading `1` from
11-digit numbers, then keep the last 10 digits, else the last 7, else all. -/
def normalize_phone (p : String) : String :=
  let digits := p.data.filter Char.isDigit
  if digits.isEmpty then ""
  else
    let digits := if digits.length = 11 && digits.head? = some '1'
                  then digits.tail else digits
    if digits.length ≥ 10 then ⟨lastChars 10 digits⟩
    else if digits.length ≥ 7 then ⟨lastChars 7 digits⟩
    else ⟨digits⟩

/-- `phones_match` from the source (match flag, confidence, reason). -/
def phones_match (p1 p2 : String) : Bool × Nat × String :=
  let n1 := normalize_phone p1
  let n2 := normalize_phone p2
  if n1 = "" || n2 = "" then (false, 0, "")
  else if n1.length ≥ 10 && n2.length ≥ 10 && n1 = n2 then
    (true, 100, "Phone exact match (10 digits)")
  else if n1.length ≥ 7 && n2.length ≥ 7
       && lastChars 7 n1.data = lastChars 7 n2.data then
    (true, 90, "Phone match (last 7 digits)")
  else (false, 0, "")

/-! ## Email normalization -/

/-- `email.rsplit('@', 1)` assuming `'@' ∈ email`: split at the last `'@'`. -/
def splitAtLastAt (cs : List Char) : List Char × List Char :=
  let r := cs.reverse
  ((r.dropWhile (· != '@')).tail.reverse, (r.takeWhile (· != '@')).reverse)

/-- `if domain == 'googlemail.com': domain = 'gmail.com'` from the source. -/
def rewriteDomain (dom : String) : String :=
  if dom = "googlemail.com" then "gmail.com" else dom

/-- `local.split('+')[0]` applied unconditionally (equivalent to the source's
guarded form: with no `+` present the split returns the whole local part). -/
def stripPlus (loc : List Char) : List Char :=
  loc.takeWhile (· != '+')

/-- `if domain == 'gmail.com': local = local.replace('.', '')` from the source. -/
def stripDotsIf (dom : String) (loc : List Char) : List Char :=
  if dom = "gmail.com" then loc.filter (· != '.') else loc

/-- `normalize_email` from the source. -/
def normalize_email (e : String) : String :=
  if e = "" then ""
  else if !e.data.contains '@' then lowerStr e
  else
    let parts := splitAtLastAt (lowerStr e).data
    let dom := rewriteDomain ⟨parts.2⟩
    (⟨stripDotsIf dom (stripPlus parts.1)⟩ : String) ++ "@" ++ dom

/-- The provider alias table described by the spec (alias domain, canonical
domain); the program knows exactly one alias. -/
def providerAliases : List (String × String) := [("googlemail.com", "gmail.com")]

/-- Providers that ignore dots in the local part, per the spec. -/
def dotInsensitiveProviders : List String := ["gmail.com"]

/-- Domain rewriting as the spec words it: replace a secondary alias of a
known provider by the provider's canonical domain. -/
def rewriteDomainSpec (dom : String) : String :=
  ((providerAliases.find? (fun p => p.1 == dom)).map (·.2)).getD dom

/-- Dot removal as the spec words it: drop local-part dots when the domain
belongs to a provider known to ignore them. -/
def stripDotsIfSpec (dom : String) (loc : List Char) : List Char :=
  if dotInsensitiveProviders.contains dom then loc.filter (· != '.') else loc

/-- The spec's description of email normalization: lowercase, rewrite an
alias domain to its canonical domain, strip from the first `+` in the local
part, and drop local-part dots for dot-insensitive providers. -/
def normalizeEmailSpec (e : String) : String :=
  if e = "" then ""
  else if !e.data.contains '@' then lowerStr e
  else
    let parts := splitAtLastAt (lowerStr e).data
    let dom := rewriteDomainSpec ⟨parts.2⟩
    (⟨stripDotsIfSpec dom (stripPlus parts.1)⟩ : String) ++ "@" ++ dom

/-- `get_email_domain` from the source. -/
def get_email_domain (e : String) : String :=
  if e = "" || !e.data.contains '@' then ""
  else ⟨((lowerStr e).data.reverse.takeWhile (· != '@')).reverse⟩

/-! ## General list/string lemmas -/

theorem mk_data_eq (l : List Char) : (⟨l⟩ : String).data = l := rfl

theorem mk_eta (s : String) : (⟨s.data⟩ : String) = s := by cases s; rfl

theorem ne_empty_of_data_ne_nil {s : String} (h : s.data ≠ []) : s ≠ "" := by
  intro he
  exact h (congrArg String.data he)

theorem lastChars_length {n : Nat} {cs : List Char} (h : n ≤ cs.length) :
    (lastChars n cs).length = n := by
  simp only [lastChars, List.length_drop]
  omega

theorem lastChars_sub {n : Nat} {cs : List Char} {c : Char}
    (h : c ∈ lastChars n cs) : c ∈ cs := by
  exact List.mem_of_mem_drop h

theorem lastChars_self {n : Nat} {cs : List Char} (h : cs.length = n) :
    lastChars n cs = cs := by
  simp [lastChars, h]

/-! ## C10: `normalize_phone` is idempotent -/

/-- The output of `normalize_phone` is either empty or an all-digit string
whose length is 10, 7, or between 1 and 6. -/
theorem normalize_phone_shape (p : String) :
    normalize_phone p = "" ∨
      ((∀ c ∈ (normalize_phone p).data, c.isDigit = true) ∧
        ((normalize_phone p).data.length = 10 ∨ (normalize_phone p).data.length = 7 ∨
          (1 ≤ (normalize_phone p).data.length ∧ (normalize_phone p).data.length ≤ 6))) := by
  unfold normalize_phone
  set d := p.data.filter Char.isDigit with hd
  by_cases hne : d.isEmpty
  · left; simp [hne]
  · right
    simp only [hne, Bool.false_eq_true, if_false]
    set d1 := if d.length = 11 && d.head? = some '1' then d.tail else d with hd1
    have hdig : ∀ c ∈ d1, c.isDigit = true := by
      intro c hc
      have : c ∈ d := by
        rw [hd1] at hc
        split at hc
        · exact List.mem_of_mem_tail hc
        · exact hc
      exact List.of_mem_filter this
    have hd1ne : d1 ≠ [] ∨ d1.length ≥ 10 := by
      rw [hd1]
      split
      · right
        rename_i hcond
        have h11 : d.length = 11 := by
          have := (Bool.and_eq_true _ _).mp hcond
          exact of_decide_eq_true this.1
        have : d.tail.length = 10 := by simp [h11]
        omega
      · left
        intro hnil
        rw [hnil] at hne
        exact hne rfl
    by_cases h10 : d1.length ≥ 10
    · simp only [h10, if_pos]
      constructor
      · intro c hc
        exact hdig c (lastChars_sub hc)
      · left
        exact lastChars_length (by omega)
    · by_cases h7 : d1.length ≥ 7
      · simp only [h10, if_neg, if_pos h7, if_false]
        constructor
        · intro c hc
          exact hdig c (lastChars_sub hc)
        · right; left
          exact lastChars_length (by omega)
      · simp only [h10, h7, if_neg, if_false]
        constructor
        · intro c hc
          exact hdig c hc
        · right; right
          have : d1 ≠ [] := by
            rcases hd1ne with h | h
            · exact h
            · omega
          have := List.length_pos.mpr this
          omega

/-- `normalize_phone` fixes any all-digit string of length 10, 7, or 1–6. -/
theorem normalize_phone_fix (s : String)
    (hd : ∀ c ∈ s.data, c.isDigit = true)
    (hlen : s.data.length = 10 ∨ s.data.length = 7 ∨
      (1 ≤ s.data.length ∧ s.data.length ≤ 6)) :
    normalize_phone s = s := by
  unfold normalize_phone
  have hfilter : s.data.filter Char.isDigit = s.data := List.filter_eq_self.mpr hd
  have hnz : s.data.length ≥ 1 := by rcases hlen with h | h | h <;> omega
  have hnemp : s.data.isEmpty = false := by
    cases h : s.data with
    | nil => rw [h] at hnz; simp at hnz
    | cons a l => simp
  have hne11 : s.data.length ≠ 11 := by rcases hlen with h | h | h <;> omega
  have hsl : s.length = s.data.length := rfl
  rcases hlen with h | h | h
  · simp only [hfilter, hnemp, Bool.false_eq_true, if_false,
      decide_eq_false hne11, Bool.false_and]
    rw [if_pos (by omega), lastChars_self h, mk_eta]
  · simp only [hfilter, hnemp, Bool.false_eq_true, if_false,
      decide_eq_false hne11, Bool.false_and]
    rw [if_neg (by omega), if_pos (by omega), lastChars_self h, mk_eta]
  · simp only [hfilter, hnemp, Bool.false_eq_true, if_false,
      decide_eq_false hne11, Bool.false_and]
    rw [if_neg (by omega), if_neg (by omega), mk_eta]

/-- C10: `normalize_phone` is idempotent: re-normalizing an already
normalized phone string gives the same result, so feeding cached
normalized phones back into `phones_match` is harmless. -/
theorem c10_normalize_phone_idempotent (p : String) :
    normalize_phone (normalize_phone p) = normalize_phone p := by
  rcases normalize_phone_shape p with h | ⟨hdig, hlen⟩
  · rw [h]
    rfl
  · exact normalize_phone_fix _ hdig hlen


/-! ## ASCII character facts -/

theorem char_isUpper_iff {c : Char} : c.isUpper = true ↔ 65 ≤ c.toNat ∧ c.toNat ≤ 90 := by
  simp [Char.isUpper, UInt32.le_def, BitVec.le_def, Char.toNat, UInt32.toNat]

theorem char_isLower_iff {c : Char} : c.isLower = true ↔ 97 ≤ c.toNat ∧ c.toNat ≤ 122 := by
  simp [Char.isLower, UInt32.le_def, BitVec.le_def, Char.toNat, UInt32.toNat]

theorem char_isDigit_iff {c : Char} : c.isDigit = true ↔ 48 ≤ c.toNat ∧ c.toNat ≤ 57 := by
  simp [Char.isDigit, UInt32.le_def, BitVec.le_def, Char.toNat, UInt32.toNat]

theorem toNat_ofNat_valid {n : Nat} (h : n.isValidChar) : (Char.ofNat n).toNat = n := by
  rw [Char.ofNat, dif_pos h]
  rfl

theorem toUpper_def (c : Char) :
    c.toUpper = if c.toNat ≥ 97 ∧ c.toNat ≤ 122 then Char.ofNat (c.toNat - 32) else c := rfl

theorem toLower_def (c : Char) :
    c.toLower = if c.toNat ≥ 65 ∧ c.toNat ≤ 90 then Char.ofNat (c.toNat + 32) else c := rfl

/-- Uppercasing preserves being alphabetic (ASCII). -/
theorem isAlpha_toUpper (c : Char) : c.toUpper.isAlpha = c.isAlpha := by
  by_cases h : c.toNat ≥ 97 ∧ c.toNat ≤ 122
  · rw [toUpper_def, if_pos h]
    have h1 : (Char.ofNat (c.toNat - 32)).toNat = c.toNat - 32 :=
      toNat_ofNat_valid (Or.inl (by omega))
    have hu : (Char.ofNat (c.toNat - 32)).isUpper = true :=
      char_isUpper_iff.mpr (by omega)
    have hl : c.isLower = true := char_isLower_iff.mpr (by omega)
    simp [Char.isAlpha, hu, hl]
  · rw [toUpper_def, if_neg h]

/-- Lowercasing is idempotent (ASCII). -/
theorem toLower_toLower (c : Char) : c.toLower.toLower = c.toLower := by
  by_cases h : c.toNat ≥ 65 ∧ c.toNat ≤ 90
  · have h1 : (Char.ofNat (c.toNat + 32)).toNat = c.toNat + 32 :=
      toNat_ofNat_valid (Or.inl (by omega))
    rw [toLower_def c, if_pos h, toLower_def (Char.ofNat (c.toNat + 32)), h1,
      if_neg (by omega)]
  · rw [toLower_def c, if_neg h, toLower_def c, if_neg h]

theorem lowerStr_lowerStr (s : String) : lowerStr (lowerStr s) = lowerStr s := by
  have hf : (Char.toLower ∘ Char.toLower) = Char.toLower := funext toLower_toLower
  simp [lowerStr, List.map_map, hf]

theorem lowerStr_ne_empty {s : String} (h : s ≠ "") : lowerStr s ≠ "" := by
  intro he
  apply h
  have hd : List.map Char.toLower s.data = [] := congrArg String.data he
  have hnil : s.data = [] := List.map_eq_nil_iff.mp hd
  rw [← mk_eta s, hnil]

/-! ## C8: `normalize_email` refines the spec's description -/

/-- C8: the worked example from the spec, and, for every address containing
an `@`, `normalize_email` computes exactly the spec's pipeline (lowercase,
alias-domain rewrite, plus-stripping, provider dot removal). -/
theorem c8_normalize_email :
    normalize_email "John.Doe+work@googlemail.com" = "johndoe@gmail.com" ∧
    ∀ e : String, e.data.contains '@' = true → normalize_email e = normalizeEmailSpec e := by
  constructor
  · rfl
  · intro e h
    have hne : e ≠ "" := by
      apply ne_empty_of_data_ne_nil
      intro hnil
      rw [hnil] at h
      simp [List.contains] at h
    have hdomEq : ∀ d : String, rewriteDomainSpec d = rewriteDomain d := by
      intro d
      unfold rewriteDomainSpec rewriteDomain providerAliases
      by_cases hd : d = "googlemail.com"
      · subst hd
        simp [List.find?]
      · have : ("googlemail.com" == d) = false := by
          simp [Ne.symm hd]
        simp [List.find?, this, hd]
    have hdotEq : ∀ d : String, ∀ loc : List Char,
        stripDotsIfSpec d loc = stripDotsIf d loc := by
      intro d loc
      unfold stripDotsIfSpec stripDotsIf dotInsensitiveProviders
      by_cases hd : d = "gmail.com"
      · subst hd
        simp [List.contains, List.elem]
      · have : (d == "gmail.com") = false := by simp [hd]
        simp [List.contains, List.elem, this, hd]
    unfold normalize_email normalizeEmailSpec
    simp only [hdomEq, hdotEq]

/-! ## C7: `soundex` output shape -/

/-- `find?` is the head of `filter`. -/
theorem find?_eq_head?_filter (p : α → Bool) (l : List α) :
    l.find? p = (l.filter p).head? := by
  induction l with
  | nil => rfl
  | cons a l ih =>
    cases h : p a with
    | true => rw [List.find?_cons_of_pos _ h, List.filter_cons_of_pos h, List.head?_cons]
    | false =>
      have h' : ¬ p a = true := by simp [h]
      rw [List.find?_cons_of_neg _ h', List.filter_cons_of_neg h', ih]

/-- The Soundex table only produces decimal digits. -/
theorem soundexMap_digit {c e : Char} (h : soundexMap c = some e) : e.isDigit = true := by
  unfold soundexMap at h
  split at h
  · injection h with h'; rw [← h']; decide
  · split at h
    · injection h with h'; rw [← h']; decide
    · split at h
      · injection h with h'; rw [← h']; decide
      · split at h
        · injection h with h'; rw [← h']; decide
        · split at h
          · injection h with h'; rw [← h']; decide
          · split at h
            · injection h with h'; rw [← h']; decide
            · split at h
              · injection h with h'; rw [← h']; decide
              · exact absurd h (by simp)

theorem soundexLoop_cons_none {c : Char} {cs : List Char} {prev : Char}
    (h : soundexMap c = none) :
    soundexLoop (c :: cs) prev = soundexLoop cs prev := by
  simp only [soundexLoop, h]

theorem soundexLoop_cons_some {c d : Char} {cs : List Char} {prev : Char}
    (h : soundexMap c = some d) :
    soundexLoop (c :: cs) prev =
      if d ≠ '0' && d ≠ prev then d :: soundexLoop cs d
      else if d = '0' then soundexLoop cs '0' else soundexLoop cs prev := by
  simp only [soundexLoop, h]

/-- Every character emitted by the Soundex encoding loop is a decimal digit. -/
theorem soundexLoop_digits (cs : List Char) :
    ∀ prev, ∀ d ∈ soundexLoop cs prev, d.isDigit = true := by
  induction cs with
  | nil => intro prev d hd; simp [soundexLoop] at hd
  | cons c cs ih =>
    intro prev d hd
    cases hmap : soundexMap c with
    | none =>
      rw [soundexLoop_cons_none hmap] at hd
      exact ih prev d hd
    | some e =>
      rw [soundexLoop_cons_some hmap] at hd
      by_cases h1 : (e ≠ '0' && e ≠ prev) = true
      · rw [if_pos h1] at hd
        rcases List.mem_cons.mp hd with h2 | h2
        · rw [h2]
          exact soundexMap_digit hmap
        · exact ih _ d h2
      · rw [if_neg h1] at hd
        by_cases h2 : e = '0'
        · rw [if_pos h2] at hd
          exact ih _ d hd
        · rw [if_neg h2] at hd
          exact ih _ d hd

/-- C7: `soundex("Smith") = soundex("Smyth") = "S530"`; on input with at
least one alphabetic character the result is exactly four characters — the
uppercased first alphabetic character followed by three decimal digits
(zero-padded) — and on input with no alphabetic character it is empty. -/
theorem c7_soundex :
    soundex "Smith" = "S530" ∧ soundex "Smyth" = "S530" ∧
    (∀ s : String, ∀ c₀ : Char, s.data.find? Char.isAlpha = some c₀ →
      ∃ ds : List Char, soundex s = ⟨c₀.toUpper :: ds⟩ ∧ ds.length = 3 ∧
        ∀ d ∈ ds, d.isDigit = true) ∧
    (∀ s : String, (∀ c ∈ s.data, c.isAlpha = false) → soundex s = "") := by
  refine ⟨rfl, rfl, ?_, ?_⟩
  · intro s c₀ hfind
    unfold soundex
    have hcomp : (s.data.map Char.toUpper).filter Char.isAlpha
        = (s.data.filter Char.isAlpha).map Char.toUpper := by
      rw [List.filter_map]
      congr 1
      apply List.filter_congr
      intro c _
      simp [Function.comp, isAlpha_toUpper]
    rw [find?_eq_head?_filter] at hfind
    rcases hf : s.data.filter Char.isAlpha with _ | ⟨a, l⟩
    · rw [hf] at hfind
      simp at hfind
    · rw [hf] at hfind
      simp only [List.head?_cons, Option.some_inj] at hfind
      subst hfind
      rw [hcomp, hf, List.map_cons]
      refine ⟨(soundexLoop (List.map Char.toUpper l) ((soundexMap a.toUpper).getD '0')
          ++ ['0', '0', '0']).take 3, ?_, ?_, ?_⟩
      · show (⟨((a.toUpper :: soundexLoop (List.map Char.toUpper l)
            ((soundexMap a.toUpper).getD '0')) ++ ['0', '0', '0']).take 4⟩ : String) = _
        rw [List.cons_append, List.take_succ_cons]
      · rw [List.length_take, List.length_append]
        simp
      · intro d hd
        have hd' := List.mem_of_mem_take hd
        rcases List.mem_append.mp hd' with h1 | h1
        · exact soundexLoop_digits _ _ d h1
        · simp only [List.mem_cons, List.not_mem_nil, or_false] at h1
          rcases h1 with h1 | h1 | h1 <;> (rw [h1]; decide)
  · intro s hno
    unfold soundex
    have hnil : (s.data.map Char.toUpper).filter Char.isAlpha = [] := by
      rw [List.filter_eq_nil_iff]
      intro c hc
      rcases List.mem_map.mp hc with ⟨b, hb, rfl⟩
      rw [isAlpha_toUpper]
      simp [hno b hb]
    rw [hnil]



/-! ## C6: nickname resolution is canonicalizing -/

/-- Every value written into `CANONICAL_NAMES` is a canonical name from the
right-hand column of `NICKNAME_MAP`. -/
theorem canonicalWrites_val_mem :
    ∀ x ∈ canonicalWrites, x.2 ∈ NICKNAME_MAP.map (·.2) := by
  have : ∀ L : List (String × String), ∀ x ∈
      L.foldr (fun p acc => (p.1, p.2) :: (p.2, p.2) :: acc) [],
      x.2 ∈ L.map (·.2) := by
    intro L
    induction L with
    | nil => intro x hx; simp at hx
    | cons p L ih =>
      intro x hx
      simp only [List.foldr_cons, List.mem_cons] at hx
      rcases hx with rfl | rfl | hx
      · simp
      · simp
      · simp only [List.map_cons, List.mem_cons]
        exact Or.inr (ih x hx)
  exact this NICKNAME_MAP

/-- The distinct canonical names. -/
def canonVals : List String := (NICKNAME_MAP.map (·.2)).dedup

/-- Checked once over the finite table: every canonical name is a fixed
point of the lookup, is lowercase, and is nonempty. -/
theorem canonVals_fixed :
    canonVals.all (fun v =>
      (canonicalLookup v == some v) && (lowerStr v == v) && (v != "")) = true := by
  decide

/-- C6: `resolve_nickname` maps `"bob"` and `"robert"` to `"robert"`, returns
unknown names unchanged (lowercased), and is idempotent. -/
theorem c6_resolve_nickname :
    resolve_nickname "bob" = "robert" ∧
    resolve_nickname "robert" = "robert" ∧
    (∀ n : String, canonicalLookup (lowerStr n) = none →
      resolve_nickname n = lowerStr n) ∧
    (∀ n : String, resolve_nickname (resolve_nickname n) = resolve_nickname n) := by
  have hfix : ∀ v : String, v ∈ canonVals →
      canonicalLookup v = some v ∧ lowerStr v = v ∧ v ≠ "" := by
    intro v hv
    have := List.all_eq_true.mp canonVals_fixed v hv
    simp only [Bool.and_eq_true, beq_iff_eq, bne_iff_ne, ne_eq] at this
    exact ⟨this.1.1, this.1.2, this.2⟩
  have hlookup_mem : ∀ k v : String, canonicalLookup k = some v → v ∈ canonVals := by
    intro k v h
    unfold canonicalLookup at h
    cases hf : canonicalWrites.reverse.find? (fun p => p.1 == k) with
    | none => rw [hf] at h; simp at h
    | some x =>
      rw [hf] at h
      simp only [Option.map_some', Option.some_inj] at h
      have hx : x ∈ canonicalWrites.reverse := List.mem_of_find?_eq_some hf
      have hx' : x ∈ canonicalWrites := List.mem_reverse.mp hx
      have := canonicalWrites_val_mem x hx'
      rw [h] at this
      exact List.mem_dedup.mpr this
  refine ⟨by decide, by decide, ?_, ?_⟩
  · intro n h
    unfold resolve_nickname
    by_cases hn : n = ""
    · subst hn
      rfl
    · rw [if_neg hn, h]
      rfl
  · intro n
    by_cases hn : n = ""
    · subst hn
      rfl
    · show resolve_nickname (resolve_nickname n) = resolve_nickname n
      unfold resolve_nickname
      rw [if_neg hn]
      cases hl : canonicalLookup (lowerStr n) with
      | none =>
        simp only [Option.getD_none]
        rw [if_neg (lowerStr_ne_empty hn), lowerStr_lowerStr, hl]
        rfl
      | some v =>
        simp only [Option.getD_some]
        obtain ⟨hlv, hlow, hvne⟩ := hfix v (hlookup_mem _ _ hl)
        rw [if_neg hvne, hlow, hlv]
        rfl


/-! ## Name parsing (`parse_name_parts` and the three regex phases) -/

/-- The honorific titles of the `titles_start` / `titles_after_comma`
patterns, in alternation order. -/
def TITLES : List (List Char) :=
  ["dr", "mr", "mrs", "ms", "miss", "prof", "rev", "hon", "sir", "dame"].map String.data

/-- The generational/professional suffixes of the `suffixes` pattern, in
alternation order. -/
def SUFFIX_WORDS : List (List Char) :=
  ["jr", "sr", "ii", "iii", "iv", "v", "phd", "md", "esq", "cpa", "dds", "dvm"].map String.data

/-- Match a lowercase pattern word case-insensitively against the head of a
stream, returning the remainder. -/
def matchWordCI : List Char → List Char → Option (List Char)
  | [], cs => some cs
  | _ :: _, [] => none
  | w :: ws, c :: cs => if c.toLower = w then matchWordCI ws cs else none

/-- After a matched title: `\.?` then `\s+` (greedy).  Fails when no
whitespace follows. -/
def afterTitle (cs : List Char) : Option (List Char) :=
  let cs1 := if cs.head? = some '.' then cs.tail else cs
  match cs1 with
  | c :: rest => if pyIsSpace c then some (rest.dropWhile pyIsSpace) else none
  | [] => none

/-- Backtracking alternation `(dr|mr|...)\.?\s+`: try each title in order,
accepting the first whose full pattern matches. -/
def tryTitles : List (List Char) → List Char → Option (List Char)
  | [], _ => none
  | w :: ws, cs =>
    match matchWordCI w cs with
    | some rest =>
      match afterTitle rest with
      | some rest2 => some rest2
      | none => tryTitles ws cs
    | none => tryTitles ws cs

/-- `re.sub(titles_start, '', name)`: the pattern is anchored at `^`, so at
most one replacement happens, at position 0. -/
def stripTitlesStart (cs : List Char) : List Char :=
  (tryTitles TITLES cs).getD cs

/-- One attempt of the `titles_after_comma` tail `\s*(title)\.?\s+` right
after a comma. -/
def tryTitlesAC (cs : List Char) : Option (List Char) :=
  tryTitles TITLES (cs.dropWhile pyIsSpace)

/-- Left-to-right scan of `re.sub(titles_after_comma, ', ', name)`: each
match of `,\s*(title)\.?\s+` is replaced by `", "` and scanning resumes
after the matched region.  The fuel is the string length; every step
consumes at least one character, so it never runs out. -/
def stacGo : Nat → List Char → List Char
  | 0, cs => cs
  | _ + 1, [] => []
  | fuel + 1, c :: cs =>
    if c = ',' then
      match tryTitlesAC cs with
      | some rest => ',' :: ' ' :: stacGo fuel rest
      | none => c :: stacGo fuel cs
    else c :: stacGo fuel cs

def stripTitlesAfterComma (cs : List Char) : List Char :=
  stacGo cs.length cs

/-- Reversed-word alternation for the suffix pattern: match a reversed
suffix word at the end (stream is reversed), then check the word boundary
`\b` (the character before the word must not be a word character). -/
def trySuffixRev : List (List Char) → List Char → Option (List Char)
  | [], _ => none
  | w :: ws, cs =>
    match matchWordCI w cs with
    | some rest =>
      if rest.head?.all (fun c => !pyIsWord c) then some rest
      else trySuffixRev ws cs
    | none => trySuffixRev ws cs

/-- The suffix words reversed, for matching from the end of the string. -/
def SUFFIX_WORDS_REV : List (List Char) :=
  SUFFIX_WORDS.map List.reverse

/-- `re.sub(suffixes, '', name)` with `suffixes = ',?\s*\b(jr|...)\.?\s*$'`:
strip trailing whitespace, one optional dot, a suffix word with a word
boundary before it, the whitespace before the word, and one optional
comma.  Anchored at `$`, so at most one replacement happens. -/
def stripSuffix (cs : List Char) : List Char :=
  let r := cs.reverse
  let r1 := r.dropWhile pyIsSpace
  let r2 := if r1.head? = some '.' then r1.tail else r1
  match trySuffixRev SUFFIX_WORDS_REV r2 with
  | none => cs
  | some rest =>
    let r3 := rest.dropWhile pyIsSpace
    let r4 := if r3.head? = some ',' then r3.tail else r3
    r4.reverse

/-- Characters kept by `re.sub(r'[^\w\s-]', '', name)`. -/
def keepNameChar (c : Char) : Bool :=
  pyIsWord c || pyIsSpace c || c = '-'

/-- Final cleanup of an extracted name token: `.lower().strip()` then
punctuation removal, as in the source. -/
def cleanToken (w : List Char) : List Char :=
  (pyStrip (w.map Char.toLower)).filter keepNameChar

/-- Assemble the `(first, last, canonical)` triple from cleaned tokens. -/
def finishNames (first last : List Char) : List Char × List Char × List Char :=
  let first := cleanToken first
  let last := cleanToken last
  let canonical :=
    if first ≠ [] ∧ last ≠ [] then first ++ ' ' :: last
    else if first ≠ [] then first
    else if last ≠ [] then last
    else []
  (first, last, canonical)

/-- `parse_name_parts` from the source, on character lists. -/
def parse_name_parts_core (full : List Char) : List Char × List Char × List Char :=
  if full = [] then ([], [], [])
  else
    let name := stripTitlesStart full
    let name := stripTitlesAfterComma name
    let name := stripSuffix name
    let name := collapseWs name
    if name = [] then ([], [], [])
    else if name.contains ',' then
      let lastPart := name.takeWhile (· != ',')
      let firstPart := (name.dropWhile (· != ',')).tail
      let first_parts := splitWs (pyStrip firstPart)
      finishNames (first_parts.headD []) (pyStrip lastPart)
    else
      match splitWs name with
      | [] => ([], [], [])
      | [w] => finishNames w []
      | w :: v :: rest => finishNames w ((v :: rest).getLastD [])

/-- `parse_name_parts` from the source. -/
def parse_name_parts (s : String) : String × String × String :=
  let p := parse_name_parts_core s.data
  (⟨p.1⟩, ⟨p.2.1⟩, ⟨p.2.2⟩)

/-- `get_canonical_first_name` from the source. -/
def get_canonical_first_name (first : String) : String :=
  if first = "" then "" else resolve_nickname first

/-- The word-dedup loop of `normalize_display_name`: drop a word equal
(case-insensitively) to the previously kept word. -/
def dedupAdjWords : List (List Char) → Option (List Char) → List (List Char)
  | [], _ => []
  | w :: ws, none => w :: dedupAdjWords ws (some (w.map Char.toLower))
  | w :: ws, some p =>
    if w.map Char.toLower ≠ p then w :: dedupAdjWords ws (some (w.map Char.toLower))
    else dedupAdjWords ws (some p)

/-- `normalize_display_name` from the source: remove duplicate consecutive
words (case-insensitive). -/
def normalize_display_name (name : String) : String :=
  if name = "" then name
  else
    let words := splitWs name.data
    if words.length ≤ 1 then name
    else ⟨joinSpace (dedupAdjWords words none)⟩


/-! ## Lowercase-word facts for the name-parsing proofs -/

theorem toLower_eq_self_of_isLower {c : Char} (h : c.isLower = true) : c.toLower = c := by
  have hn := char_isLower_iff.mp h
  rw [toLower_def, if_neg (by omega)]

theorem isAlpha_of_isLower {c : Char} (h : c.isLower = true) : c.isAlpha = true := by
  simp [Char.isAlpha, h]

theorem lower_ne_of_lt {c d : Char} (h : 97 ≤ c.toNat) (hd : d.toNat < 97) : c ≠ d := by
  intro he
  rw [he] at h
  omega

theorem lower_not_space {c : Char} (h : c.isLower = true) : pyIsSpace c = false := by
  have hn := char_isLower_iff.mp h
  simp [pyIsSpace, lower_ne_of_lt hn.1 (show (' ').toNat < 97 by decide),
    lower_ne_of_lt hn.1 (show ('\t').toNat < 97 by decide),
    lower_ne_of_lt hn.1 (show ('\n').toNat < 97 by decide),
    lower_ne_of_lt hn.1 (show ('\x0d').toNat < 97 by decide),
    lower_ne_of_lt hn.1 (show ('\x0b').toNat < 97 by decide),
    lower_ne_of_lt hn.1 (show ('\x0c').toNat < 97 by decide)]

theorem lower_ne_comma {c : Char} (h : c.isLower = true) : c ≠ ',' :=
  lower_ne_of_lt (char_isLower_iff.mp h).1 (by decide)

theorem lower_ne_dot {c : Char} (h : c.isLower = true) : c ≠ '.' :=
  lower_ne_of_lt (char_isLower_iff.mp h).1 (by decide)

theorem lower_pyIsWord {c : Char} (h : c.isLower = true) : pyIsWord c = true := by
  simp [pyIsWord, Char.isAlphanum, isAlpha_of_isLower h]

theorem toLower_eq_self_of_not_alpha {c : Char} (h : c.isAlpha = false) : c.toLower = c := by
  rw [toLower_def, if_neg]
  intro hc
  have hu : c.isUpper = true := char_isUpper_iff.mpr hc
  rw [Char.isAlpha, hu] at h
  simp at h

/-! ## `matchWordCI` -/

/-- A lowercase word matches itself (case-insensitively) at the head of a
stream, leaving the rest. -/
theorem matchWordCI_self {f rest : List Char} (hf : ∀ c ∈ f, c.isLower = true) :
    matchWordCI f (f ++ rest) = some rest := by
  induction f with
  | nil => rfl
  | cons c f ih =>
    have hc := hf c (List.mem_cons_self c f)
    simp only [List.cons_append, matchWordCI, toLower_eq_self_of_isLower hc, if_pos rfl]
    exact ih (fun d hd => hf d (List.mem_cons_of_mem c hd))

/-- Matching a lowercase pattern word `w` against a different lowercase
word `f` followed by a non-alphabetic separator either fails or stops
inside `f` (so the remainder starts with a lowercase letter). -/
theorem matchWordCI_ne {w : List Char} : ∀ {f rest : List Char},
    (∀ c ∈ w, c.isLower = true) → (∀ c ∈ f, c.isLower = true) →
    w ≠ f → (∀ c, rest.head? = some c → c.isAlpha = false) →
    matchWordCI w (f ++ rest) = none ∨
      ∃ c cs', matchWordCI w (f ++ rest) = some (c :: cs') ∧ c.isLower = true := by
  induction w with
  | nil =>
    intro f rest _ hf hne _
    cases f with
    | nil => exact absurd rfl hne
    | cons c f' =>
      right
      exact ⟨c, f' ++ rest, rfl, hf c (List.mem_cons_self c f')⟩
  | cons a w' ih =>
    intro f rest hw hf hne hrest
    have ha := hw a (List.mem_cons_self a w')
    cases f with
    | nil =>
      left
      cases hr : rest with
      | nil => simp [matchWordCI]
      | cons c cs =>
        have hca : c.isAlpha = false := hrest c (by rw [hr]; rfl)
        have hcl : c.toLower = c := toLower_eq_self_of_not_alpha hca
        have hcne : ¬(c.toLower = a) := by
          rw [hcl]
          intro he
          rw [he, isAlpha_of_isLower ha] at hca
          exact Bool.true_eq_false.mp hca
        simp [matchWordCI, hcne]
    | cons b f' =>
      have hb := hf b (List.mem_cons_self b f')
      by_cases hab : b.toLower = a
      · have hba : b = a := by rw [toLower_eq_self_of_isLower hb] at hab; exact hab
        have hne2 : w' ≠ f' := by
          intro he
          exact hne (by rw [← hba, he])
        have hr := ih (fun c hc => hw c (List.mem_cons_of_mem a hc))
          (fun c hc => hf c (List.mem_cons_of_mem b hc)) hne2 hrest
        simpa only [List.cons_append, matchWordCI, if_pos hab] using hr
      · left
        simp [matchWordCI, hab]


/-! ## Title matching never fires on plain lowercase words -/

theorem tryTitles_cons_of_none {w : List Char} {ws : List (List Char)} {cs : List Char}
    (h : matchWordCI w cs = none) : tryTitles (w :: ws) cs = tryTitles ws cs := by
  simp only [tryTitles, h]

theorem tryTitles_cons_of_after_none {w : List Char} {ws : List (List Char)}
    {cs rest : List Char} (h : matchWordCI w cs = some rest)
    (h2 : afterTitle rest = none) : tryTitles (w :: ws) cs = tryTitles ws cs := by
  simp only [tryTitles, h, h2]

/-- `afterTitle` fails when the stream starts with a lowercase letter. -/
theorem afterTitle_cons_lower {c : Char} {cs : List Char} (hc : c.isLower = true) :
    afterTitle (c :: cs) = none := by
  unfold afterTitle
  rw [if_neg]
  · simp only [lower_not_space hc, Bool.false_eq_true, if_false]
  · simp only [List.head?_cons, Option.some_inj]
    exact fun he => lower_ne_dot hc he

/-- No alternative of an all-lowercase alternation matches a lowercase word
followed by a non-alphabetic separator, provided `afterTitle` rejects the
separator whenever the word matches exactly. -/
theorem tryTitles_none {ws : List (List Char)} {f rest : List Char}
    (hws : ∀ w ∈ ws, ∀ c ∈ w, c.isLower = true)
    (hf : ∀ c ∈ f, c.isLower = true)
    (hrest : ∀ c, rest.head? = some c → c.isAlpha = false)
    (heq : ∀ w ∈ ws, w = f → afterTitle rest = none) :
    tryTitles ws (f ++ rest) = none := by
  induction ws with
  | nil => rfl
  | cons w ws ih =>
    have hw := hws w (List.mem_cons_self w ws)
    have ihr := ih (fun v hv => hws v (List.mem_cons_of_mem w hv))
      (fun v hv c => heq v (List.mem_cons_of_mem w hv) c)
    by_cases hwf : w = f
    · subst hwf
      rw [tryTitles_cons_of_after_none (matchWordCI_self hf)
        (heq w (List.mem_cons_self w ws) rfl)]
      exact ihr
    · rcases matchWordCI_ne hw hf hwf hrest with h | ⟨c, cs', h, hc⟩
      · rw [tryTitles_cons_of_none h]
        exact ihr
      · rw [tryTitles_cons_of_after_none h (afterTitle_cons_lower hc)]
        exact ihr

theorem stripTitlesStart_of_none {cs : List Char} (h : tryTitles TITLES cs = none) :
    stripTitlesStart cs = cs := by
  unfold stripTitlesStart
  rw [h]
  rfl

/-! ## Suffix matching never fires on plain lowercase words -/

theorem trySuffixRev_cons_of_none {w : List Char} {ws : List (List Char)} {cs : List Char}
    (h : matchWordCI w cs = none) : trySuffixRev (w :: ws) cs = trySuffixRev ws cs := by
  simp only [trySuffixRev, h]

theorem trySuffixRev_cons_of_boundary {w : List Char} {ws : List (List Char)}
    {cs rest : List Char} (h : matchWordCI w cs = some rest)
    (hb : rest.head?.all (fun c => !pyIsWord c) = false) :
    trySuffixRev (w :: ws) cs = trySuffixRev ws cs := by
  simp only [trySuffixRev, h, hb, Bool.false_eq_true, if_false]

theorem trySuffixRev_none {ws : List (List Char)} {fr rest : List Char}
    (hws : ∀ w ∈ ws, ∀ c ∈ w, c.isLower = true)
    (hfr : ∀ c ∈ fr, c.isLower = true)
    (hne : ∀ w ∈ ws, w ≠ fr)
    (hrest : ∀ c, rest.head? = some c → c.isAlpha = false) :
    trySuffixRev ws (fr ++ rest) = none := by
  induction ws with
  | nil => rfl
  | cons w ws ih =>
    have hw := hws w (List.mem_cons_self w ws)
    have ihr := ih (fun v hv => hws v (List.mem_cons_of_mem w hv))
      (fun v hv => hne v (List.mem_cons_of_mem w hv))
    rcases matchWordCI_ne hw hfr (hne w (List.mem_cons_self w ws)) hrest
      with h | ⟨c, cs', h, hc⟩
    · rw [trySuffixRev_cons_of_none h]
      exact ihr
    · have hb : (c :: cs').head?.all (fun c => !pyIsWord c) = false := by
        simp [lower_pyIsWord hc]
      rw [trySuffixRev_cons_of_boundary h hb]
      exact ihr

theorem stripSuffix_of_none {cs : List Char}
    (h : trySuffixRev SUFFIX_WORDS_REV
      (if (cs.reverse.dropWhile pyIsSpace).head? = some '.'
       then (cs.reverse.dropWhile pyIsSpace).tail
       else cs.reverse.dropWhile pyIsSpace) = none) :
    stripSuffix cs = cs := by
  simp only [stripSuffix, h]

/-! ## The comma-title scan on comma-free and single-comma strings -/

theorem stacGo_no_comma {cs : List Char} (h : ∀ c ∈ cs, c ≠ ',') :
    ∀ fuel, stacGo fuel cs = cs := by
  induction cs with
  | nil => intro fuel; cases fuel <;> rfl
  | cons c cs ih =>
    intro fuel
    cases fuel with
    | zero => rfl
    | succ fuel =>
      simp only [stacGo, if_neg (h c (List.mem_cons_self c cs))]
      rw [ih (fun d hd => h d (List.mem_cons_of_mem c hd)) fuel]

theorem stacGo_walk {a : List Char} (h : ∀ c ∈ a, c ≠ ',') :
    ∀ {rest : List Char} {fuel : Nat},
      stacGo (a.length + fuel) (a ++ rest) = a ++ stacGo fuel rest := by
  induction a with
  | nil => intro rest fuel; simp
  | cons c a ih =>
    intro rest fuel
    have hlen : (c :: a).length + fuel = (a.length + fuel) + 1 := by
      simp [List.length_cons]
      omega
    rw [hlen]
    simp only [List.cons_append, List.append_eq, stacGo,
      if_neg (h c (List.mem_cons_self c a))]
    rw [ih (fun d hd => h d (List.mem_cons_of_mem c hd))]

/-! ## Whitespace splitting of one- and two-word strings -/

theorem dropWhile_no_space {f : List Char} (h : ∀ c ∈ f, pyIsSpace c = false) :
    f.dropWhile pyIsSpace = f := by
  cases f with
  | nil => rfl
  | cons c f => simp [List.dropWhile_cons, h c (List.mem_cons_self c f)]

theorem pyStrip_id {f : List Char} (h : ∀ c ∈ f, pyIsSpace c = false) :
    pyStrip f = f := by
  unfold pyStrip
  rw [dropWhile_no_space h, dropWhile_no_space (by
    intro c hc
    exact h c (List.mem_reverse.mp hc)), List.reverse_reverse]

theorem splitWsAux_word {w : List Char} (hw : ∀ c ∈ w, pyIsSpace c = false) :
    ∀ {cs acc : List Char}, splitWsAux (w ++ cs) acc = splitWsAux cs (w.reverse ++ acc) := by
  induction w with
  | nil => intro cs acc; rfl
  | cons c w ih =>
    intro cs acc
    simp only [List.cons_append, List.append_eq, splitWsAux,
      hw c (List.mem_cons_self c w), Bool.false_eq_true, if_false]
    rw [ih (fun d hd => hw d (List.mem_cons_of_mem c hd))]
    simp [List.append_assoc]

theorem splitWsAux_nil_acc {acc : List Char} (h : acc ≠ []) :
    splitWsAux [] acc = [acc.reverse] := by
  simp [splitWsAux, h]

theorem splitWsAux_space {c : Char} {cs acc : List Char} (hc : pyIsSpace c = true)
    (h : acc ≠ []) : splitWsAux (c :: cs) acc = acc.reverse :: splitWsAux cs [] := by
  simp [splitWsAux, hc, h]

theorem splitWs_single {w : List Char} (hne : w ≠ [])
    (hw : ∀ c ∈ w, pyIsSpace c = false) : splitWs w = [w] := by
  unfold splitWs
  have h1 : splitWsAux (w ++ []) [] = splitWsAux [] (w.reverse ++ []) := splitWsAux_word hw
  rw [List.append_nil] at h1
  rw [List.append_nil] at h1
  rw [h1, splitWsAux_nil_acc (by simp [hne]), List.reverse_reverse]

theorem splitWs_pair {f l : List Char} (hfne : f ≠ []) (hlne : l ≠ [])
    (hf : ∀ c ∈ f, pyIsSpace c = false) (hl : ∀ c ∈ l, pyIsSpace c = false) :
    splitWs (f ++ ' ' :: l) = [f, l] := by
  unfold splitWs
  have h1 : splitWsAux (f ++ ' ' :: l) [] = splitWsAux (' ' :: l) (f.reverse ++ []) :=
    splitWsAux_word hf
  rw [List.append_nil] at h1
  rw [h1, splitWsAux_space (by decide) (by simp [hfne]), List.reverse_reverse]
  have h2 : splitWsAux (l ++ []) [] = splitWsAux [] (l.reverse ++ []) := splitWsAux_word hl
  rw [List.append_nil] at h2
  rw [List.append_nil] at h2
  rw [h2, splitWsAux_nil_acc (by simp [hlne]), List.reverse_reverse]


/-! ## C1: dual-order name parsing -/

theorem titles_all_lower : ∀ w ∈ TITLES, ∀ c ∈ w, c.isLower = true := by decide

theorem suffixes_rev_all_lower : ∀ w ∈ SUFFIX_WORDS_REV, ∀ c ∈ w, c.isLower = true := by
  decide

theorem afterTitle_nil : afterTitle [] = none := rfl

theorem stacGo_cons_comma_none {fuel : Nat} {cs : List Char} (h : tryTitlesAC cs = none) :
    stacGo (fuel + 1) (',' :: cs) = ',' :: stacGo fuel cs := by
  conv_lhs => simp only [stacGo]
  rw [if_pos trivial, h]

theorem stacGo_cons_not_comma {fuel : Nat} {c : Char} {cs : List Char} (h : c ≠ ',') :
    stacGo (fuel + 1) (c :: cs) = c :: stacGo fuel cs := by
  conv_lhs => simp only [stacGo]
  rw [if_neg h]

theorem afterTitle_comma {rest : List Char} : afterTitle (',' :: rest) = none := by
  unfold afterTitle
  rw [if_neg (by simp)]
  simp [pyIsSpace]

theorem contains_comma_of_not_mem {cs : List Char} (h : ',' ∉ cs) :
    cs.contains ',' = false := by
  cases hc : cs.contains ','
  · rfl
  · exact absurd (List.elem_iff.mp (show List.elem ',' cs = true from hc)) h

theorem contains_comma_of_mem {cs : List Char} (h : ',' ∈ cs) :
    cs.contains ',' = true := by
  show List.elem ',' cs = true
  exact List.elem_iff.mpr h

theorem takeWhile_append_comma {l rest : List Char} (h : ∀ c ∈ l, c ≠ ',') :
    (l ++ ',' :: rest).takeWhile (· != ',') = l := by
  induction l with
  | nil => simp [List.takeWhile_cons]
  | cons c l ih =>
    have hc : (c != ',') = true := by
      simp [h c (List.mem_cons_self c l)]
    simp only [List.cons_append, List.takeWhile_cons, hc, if_pos]
    rw [ih (fun d hd => h d (List.mem_cons_of_mem c hd))]

theorem dropWhile_append_comma {l rest : List Char} (h : ∀ c ∈ l, c ≠ ',') :
    (l ++ ',' :: rest).dropWhile (· != ',') = ',' :: rest := by
  induction l with
  | nil => simp [List.dropWhile_cons]
  | cons c l ih =>
    have hc : (c != ',') = true := by
      simp [h c (List.mem_cons_self c l)]
    simp only [List.cons_append, List.dropWhile_cons, hc, if_pos]
    exact ih (fun d hd => h d (List.mem_cons_of_mem c hd))

theorem pyStrip_space_cons {f : List Char} (hf : ∀ c ∈ f, pyIsSpace c = false) :
    pyStrip (' ' :: f) = f := by
  unfold pyStrip
  have hsp : pyIsSpace ' ' = true := by decide
  rw [List.dropWhile_cons]
  simp only [hsp, if_pos]
  rw [dropWhile_no_space hf,
    dropWhile_no_space (fun c hc => hf c (List.mem_reverse.mp hc)), List.reverse_reverse]

theorem cleanToken_id {w : List Char} (h : ∀ c ∈ w, c.isLower = true) :
    cleanToken w = w := by
  unfold cleanToken
  have h1 : w.map Char.toLower = w := by
    conv_rhs => rw [← List.map_id w]
    exact List.map_congr_left (fun c hc => toLower_eq_self_of_isLower (h c hc))
  rw [h1, pyStrip_id (fun c hc => lower_not_space (h c hc))]
  apply List.filter_eq_self.mpr
  intro c hc
  simp [keepNameChar, lower_pyIsWord (h c hc)]

theorem finishNames_lower {f l : List Char}
    (hfne : f ≠ []) (hf : ∀ c ∈ f, c.isLower = true)
    (hlne : l ≠ []) (hl : ∀ c ∈ l, c.isLower = true) :
    finishNames f l = (f, l, f ++ ' ' :: l) := by
  unfold finishNames
  rw [cleanToken_id hf, cleanToken_id hl]
  show (f, l, if f ≠ [] ∧ l ≠ [] then f ++ ' ' :: l
    else if f ≠ [] then f else if l ≠ [] then l else []) = (f, l, f ++ ' ' :: l)
  rw [if_pos ⟨hfne, hlne⟩]

/-- Direct order: `"first last"` parses to `(first, last, "first last")`. -/
theorem parse_core_direct {f l : List Char}
    (hfne : f ≠ []) (hf : ∀ c ∈ f, c.isLower = true)
    (hlne : l ≠ []) (hl : ∀ c ∈ l, c.isLower = true)
    (hft : f ∉ TITLES) (hls : l ∉ SUFFIX_WORDS) :
    parse_name_parts_core (f ++ ' ' :: l) = (f, l, f ++ ' ' :: l) := by
  have hfw : ∀ c ∈ f, pyIsSpace c = false := fun c hc => lower_not_space (hf c hc)
  have hlw : ∀ c ∈ l, pyIsSpace c = false := fun c hc => lower_not_space (hl c hc)
  have hrest1 : ∀ c : Char, (' ' :: l).head? = some c → c.isAlpha = false := by
    intro c hc
    simp only [List.head?_cons, Option.some_inj] at hc
    subst hc
    decide
  have hP1 : stripTitlesStart (f ++ ' ' :: l) = f ++ ' ' :: l :=
    stripTitlesStart_of_none
      (tryTitles_none titles_all_lower hf hrest1
        (fun w hw hwf => absurd (hwf ▸ hw) hft))
  have hnocomma : ∀ c ∈ f ++ ' ' :: l, c ≠ ',' := by
    intro c hc
    rcases List.mem_append.mp hc with h | h
    · exact lower_ne_comma (hf c h)
    · rcases List.mem_cons.mp h with rfl | h
      · decide
      · exact lower_ne_comma (hl c h)
  have hP2 : stripTitlesAfterComma (f ++ ' ' :: l) = f ++ ' ' :: l :=
    stacGo_no_comma hnocomma _
  obtain ⟨c₀, rl', hrev⟩ : ∃ c₀ rl', l.reverse = c₀ :: rl' := by
    cases hlr : l.reverse with
    | nil => exact absurd (List.reverse_eq_nil_iff.mp hlr) hlne
    | cons a b => exact ⟨a, b, rfl⟩
  have hc₀ : c₀ ∈ l := List.mem_reverse.mp (by rw [hrev]; exact List.mem_cons_self c₀ rl')
  have hc₀l := hl c₀ hc₀
  have hP3 : stripSuffix (f ++ ' ' :: l) = f ++ ' ' :: l := by
    apply stripSuffix_of_none
    have hrw : (f ++ ' ' :: l).reverse = l.reverse ++ ' ' :: f.reverse := by
      simp [List.reverse_append]
    rw [hrw, hrev, List.cons_append, List.dropWhile_cons]
    simp only [lower_not_space hc₀l, Bool.false_eq_true, if_false]
    rw [if_neg (by
      simp only [List.head?_cons, Option.some_inj]
      exact lower_ne_dot hc₀l)]
    rw [← List.cons_append, ← hrev]
    apply trySuffixRev_none suffixes_rev_all_lower
      (fun c hc => hl c (List.mem_reverse.mp hc))
    · intro w hw he
      rcases List.mem_map.mp hw with ⟨sw, hsw, rfl⟩
      exact absurd ((List.reverse_inj).mp he ▸ hsw) hls
    · intro c hc
      simp only [List.head?_cons, Option.some_inj] at hc
      subst hc
      decide
  have hP4 : collapseWs (f ++ ' ' :: l) = f ++ ' ' :: l := by
    unfold collapseWs
    rw [splitWs_pair hfne hlne hfw hlw]
    simp [joinSpace]
  have hne1 : ¬(f ++ ' ' :: l = []) := by simp
  have hcon : ¬((f ++ ' ' :: l).contains ',' = true) := by
    rw [contains_comma_of_not_mem (fun hmem => hnocomma ',' hmem rfl)]
    simp
  unfold parse_name_parts_core
  simp only [hP1, hP2, hP3, hP4]
  rw [if_neg hne1, if_neg hne1, if_neg hcon, splitWs_pair hfne hlne hfw hlw]
  simp only [List.getLastD]
  exact finishNames_lower hfne hf hlne hl

/-- Comma order: `"last, first"` parses to `(first, last, "first last")`. -/
theorem parse_core_comma {f l : List Char}
    (hfne : f ≠ []) (hf : ∀ c ∈ f, c.isLower = true)
    (hlne : l ≠ []) (hl : ∀ c ∈ l, c.isLower = true)
    (hfs : f ∉ SUFFIX_WORDS) :
    parse_name_parts_core (l ++ ',' :: ' ' :: f) = (f, l, f ++ ' ' :: l) := by
  have hfw : ∀ c ∈ f, pyIsSpace c = false := fun c hc => lower_not_space (hf c hc)
  have hlw : ∀ c ∈ l, pyIsSpace c = false := fun c hc => lower_not_space (hl c hc)
  have hrest1 : ∀ c : Char, (',' :: ' ' :: f).head? = some c → c.isAlpha = false := by
    intro c hc
    simp only [List.head?_cons, Option.some_inj] at hc
    subst hc
    decide
  have hP1 : stripTitlesStart (l ++ ',' :: ' ' :: f) = l ++ ',' :: ' ' :: f :=
    stripTitlesStart_of_none
      (tryTitles_none titles_all_lower hl hrest1 (fun w _ _ => afterTitle_comma))
  have hacf : tryTitlesAC (' ' :: f) = none := by
    unfold tryTitlesAC
    rw [List.dropWhile_cons]
    simp only [show pyIsSpace ' ' = true by decide, if_pos, dropWhile_no_space hfw]
    have hres : tryTitles TITLES (f ++ []) = none := by
      apply tryTitles_none titles_all_lower hf
      · intro c hc
        simp at hc
      · intro w _ _
        exact afterTitle_nil
    rw [List.append_nil] at hres
    exact hres
  have hP2 : stripTitlesAfterComma (l ++ ',' :: ' ' :: f) = l ++ ',' :: ' ' :: f := by
    unfold stripTitlesAfterComma
    have hL : (l ++ ',' :: ' ' :: f).length = l.length + (f.length + 2) := by
      simp [List.length_append]
    rw [hL, stacGo_walk (fun c hc => lower_ne_comma (hl c hc))]
    have h2 : stacGo (f.length + 2) (',' :: ' ' :: f) = ',' :: ' ' :: f := by
      show stacGo (f.length + 1 + 1) (',' :: ' ' :: f) = ',' :: ' ' :: f
      rw [stacGo_cons_comma_none hacf,
        stacGo_cons_not_comma (by decide : ¬(' ' = ',')),
        stacGo_no_comma (fun c hc => lower_ne_comma (hf c hc)) f.length]
    rw [h2]
  obtain ⟨c₀, rf', hrev⟩ : ∃ c₀ rf', f.reverse = c₀ :: rf' := by
    cases hlr : f.reverse with
    | nil => exact absurd (List.reverse_eq_nil_iff.mp hlr) hfne
    | cons a b => exact ⟨a, b, rfl⟩
  have hc₀ : c₀ ∈ f := List.mem_reverse.mp (by rw [hrev]; exact List.mem_cons_self c₀ rf')
  have hc₀l := hf c₀ hc₀
  have hP3 : stripSuffix (l ++ ',' :: ' ' :: f) = l ++ ',' :: ' ' :: f := by
    apply stripSuffix_of_none
    have hrw : (l ++ ',' :: ' ' :: f).reverse = f.reverse ++ ' ' :: ',' :: l.reverse := by
      simp [List.reverse_append]
    rw [hrw, hrev, List.cons_append, List.dropWhile_cons]
    simp only [lower_not_space hc₀l, Bool.false_eq_true, if_false]
    rw [if_neg (by
      simp only [List.head?_cons, Option.some_inj]
      exact lower_ne_dot hc₀l)]
    rw [← List.cons_append, ← hrev]
    apply trySuffixRev_none suffixes_rev_all_lower
      (fun c hc => hf c (List.mem_reverse.mp hc))
    · intro w hw he
      rcases List.mem_map.mp hw with ⟨sw, hsw, rfl⟩
      exact absurd ((List.reverse_inj).mp he ▸ hsw) hfs
    · intro c hc
      simp only [List.head?_cons, Option.some_inj] at hc
      subst hc
      decide
  have hsplit : splitWs (l ++ ',' :: ' ' :: f) = [l ++ [','], f] := by
    have hform : l ++ ',' :: ' ' :: f = (l ++ [',']) ++ ' ' :: f := by
      simp
    rw [hform]
    apply splitWs_pair (by simp) hfne
    · intro c hc
      rcases List.mem_append.mp hc with h | h
      · exact hlw c h
      · rcases List.mem_cons.mp h with rfl | h
        · decide
        · simp at h
    · exact hfw
  have hP4 : collapseWs (l ++ ',' :: ' ' :: f) = l ++ ',' :: ' ' :: f := by
    unfold collapseWs
    rw [hsplit]
    simp [joinSpace]
  have hne1 : ¬(l ++ ',' :: ' ' :: f = []) := by simp
  have hcomma_mem : ',' ∈ l ++ ',' :: ' ' :: f := by
    apply List.mem_append.mpr
    right
    exact List.mem_cons_self _ _
  have hcon : (l ++ ',' :: ' ' :: f).contains ',' = true :=
    contains_comma_of_mem hcomma_mem
  have hlnc : ∀ c ∈ l, c ≠ ',' := fun c hc => lower_ne_comma (hl c hc)
  unfold parse_name_parts_core
  simp only [hP1, hP2, hP3, hP4]
  rw [if_neg hne1, if_neg hne1, if_pos hcon]
  rw [takeWhile_append_comma hlnc, dropWhile_append_comma hlnc]
  simp only [List.tail_cons]
  rw [pyStrip_space_cons hfw, pyStrip_id hlw, splitWs_single hfne hfw]
  simp only [List.headD_cons]
  exact finishNames_lower hfne hf hlne hl

/-- C1 (amended): for names made of a single-word lowercase first name and a
single-word lowercase last name, where the first name is not an honorific
title or suffix token and the last name is not a suffix token, the
`"First Last"` rendering and the `"Last, First"` rendering parse to the
same `(first, last, canonical)` triple, namely
`(first, last, "first last")`. -/
theorem c1_dual_order_amended (f l : List Char)
    (hfne : f ≠ []) (hf : ∀ c ∈ f, c.isLower = true)
    (hlne : l ≠ []) (hl : ∀ c ∈ l, c.isLower = true)
    (hft : f ∉ TITLES) (hfs : f ∉ SUFFIX_WORDS) (hls : l ∉ SUFFIX_WORDS) :
    parse_name_parts ⟨f ++ ' ' :: l⟩ = parse_name_parts ⟨l ++ ',' :: ' ' :: f⟩ ∧
    parse_name_parts ⟨f ++ ' ' :: l⟩ = (⟨f⟩, ⟨l⟩, ⟨f ++ ' ' :: l⟩) := by
  have h1 := parse_core_direct hfne hf hlne hl hft hls
  have h2 := parse_core_comma hfne hf hlne hl hfs
  unfold parse_name_parts
  rw [mk_data_eq, mk_data_eq, h1, h2]
  exact ⟨rfl, rfl⟩

/-- Witness for C1's amended theorem at `"john smith"` / `"smith, john"`. -/
theorem c1_dual_order_witness :
    parse_name_parts "john smith" = parse_name_parts "smith, john" ∧
    parse_name_parts "john smith" = ("john", "smith", "john smith") := by
  have h := c1_dual_order_amended "john".data "smith".data
    (by decide) (by decide) (by decide) (by decide) (by decide) (by decide) (by decide)
  exact h

/-- C1 counterexample: the claim fails for multi-word last names.  The
"First Last" rendering of the name (first `"john"`, last `"van berg"`) is
`"john van berg"`, its "Last, First" rendering is `"van berg, john"`, and
the two parse to different triples (canonical `"john berg"` versus
`"john van berg"`), refuting the universally quantified claim. -/
theorem c1_counterexample :
    parse_name_parts "john van berg" ≠ parse_name_parts "van berg, john" ∧
    parse_name_parts "john van berg" = ("john", "berg", "john berg") ∧
    parse_name_parts "van berg, john" = ("john", "van berg", "john van berg") := by
  refine ⟨by decide, by decide, by decide⟩


/-! ## Witnesses for hypothesis-bearing theorems -/

theorem c6_resolve_nickname_witness :
    resolve_nickname "zorp" = "zorp" ∧
    resolve_nickname (resolve_nickname "samantha") = resolve_nickname "samantha" :=
  ⟨c6_resolve_nickname.2.2.1 "zorp" (by decide), c6_resolve_nickname.2.2.2 "samantha"⟩

theorem c7_soundex_witness :
    (∃ ds : List Char, soundex "Smith" = ⟨'S'.toUpper :: ds⟩ ∧ ds.length = 3 ∧
      ∀ d ∈ ds, d.isDigit = true) ∧ soundex "123" = "" :=
  ⟨c7_soundex.2.2.1 "Smith" 'S' (by decide), c7_soundex.2.2.2 "123" (by decide)⟩

theorem c8_normalize_email_witness :
    normalize_email "Ann+x@googlemail.com" = normalizeEmailSpec "Ann+x@googlemail.com" :=
  c8_normalize_email.2 "Ann+x@googlemail.com" (by decide)


/-! ## `difflib.SequenceMatcher` (Ratcliff–Obershelp)

`ratio()` as used by the scorer: total matched characters `M` over the two
strings, with `ratio = 2M / (len a + len b)`.  The autojunk heuristic only
activates for second strings of 200+ characters and the junk predicate is
`None`, so the plain longest-match recursion below is the exact algorithm
for the engine's inputs; ratios are compared as exact rationals.  -/

/-- One row update plus best-block tracking of `find_longest_match`:
`row j` is the length of the longest match ending at `a[i]`/`b[j]`.
The previous row is consulted at `j - 1` (missing entries give 0, and
`j = 0` has no predecessor).  The best block is updated on strictly longer
matches only, keeping the earliest `i`, then earliest `j`. -/
def flmStep (b : List Char) (blo bhi : Nat) (ai : Char) (i : Nat)
    (st : (Nat × Nat × Nat) × (Nat → Nat)) : (Nat × Nat × Nat) × (Nat → Nat) :=
  let prev := st.2
  let newRow : Nat → Nat := fun j =>
    if blo ≤ j ∧ j < bhi ∧ b.get? j = some ai then
      (if j = 0 then 0 else prev (j - 1)) + 1
    else 0
  let best := (List.range' blo (bhi - blo)).foldl
    (fun bst j =>
      if b.get? j = some ai then
        let k := (if j = 0 then 0 else prev (j - 1)) + 1
        if k > bst.2.2 then (i + 1 - k, j + 1 - k, k) else bst
      else bst)
    st.1
  (best, newRow)

/-- `find_longest_match(alo, ahi, blo, bhi)` (junk-free). -/
def find_longest_match (a b : List Char) (alo ahi blo bhi : Nat) : Nat × Nat × Nat :=
  ((List.range' alo (ahi - alo)).foldl
    (fun (st : (Nat × Nat × Nat) × (Nat → Nat)) i =>
      match a.get? i with
      | some ai => flmStep b blo bhi ai i st
      | none => st)
    ((alo, blo, 0), fun _ => 0)).1

/-- Total size of all matching blocks (the recursion of
`get_matching_blocks`), with fuel bounded by the ranges. -/
def mbTotal (a b : List Char) : Nat → Nat → Nat → Nat → Nat → Nat
  | 0, _, _, _, _ => 0
  | fuel + 1, alo, ahi, blo, bhi =>
    let m := find_longest_match a b alo ahi blo bhi
    if m.2.2 = 0 then 0
    else mbTotal a b fuel alo m.1 blo m.2.1 + m.2.2 +
      mbTotal a b fuel (m.1 + m.2.2) ahi (m.2.1 + m.2.2) bhi

/-- Matched-character total `M` of `SequenceMatcher(None, s1, s2)`. -/
def seqM (s1 s2 : String) : Nat :=
  mbTotal s1.data s2.data (s1.data.length + s2.data.length + 1)
    0 s1.data.length 0 s2.data.length

/-- Combined length `T`; `ratio = 2M / T`. -/
def seqT (s1 s2 : String) : Nat :=
  s1.data.length + s2.data.length

/-- `SequenceMatcher(...).ratio() > 0.8`, as the exact rational comparison
`2M/T > 4/5`. -/
def simGT08 (s1 s2 : String) : Bool :=
  2 * seqT s1 s2 < 5 * seqM s1 s2


/-! ## `VCardContact`

The record's matching-relevant fields.  The cached `_normalized_*` members
of the Python class are a memoization of the pure accessors below and are
recomputed here; `raw_vcard` (verbatim input text) feeds only serialization
and is not consulted by any matching or merging logic. -/

structure VCardContact where
  fn : String := ""
  n_parts : List String := []
  emails : List String := []
  phones : List String := []
  addresses : List String := []
  notes : List String := []
  org : String := ""
  title : String := ""
  birthday : String := ""
  url : String := ""
  source_file : String := ""
deriving DecidableEq, Inhabited

def VCardContact.get_parsed_name (c : VCardContact) : String × String × String :=
  parse_name_parts c.fn

def VCardContact.get_normalized_name (c : VCardContact) : String :=
  (parse_name_parts c.fn).2.2

def VCardContact.get_normalized_emails (c : VCardContact) : List String :=
  c.emails.map normalize_email

def VCardContact.get_normalized_phones (c : VCardContact) : List String :=
  c.phones.map normalize_phone

def VCardContact.get_display_name (c : VCardContact) : String :=
  if c.fn ≠ "" then normalize_display_name c.fn else "Unnamed Contact"

/-! ## `calculate_match_confidence`

The score accumulation of the source, category by category.  The
human-readable factor strings are presentation-only (and the email factor
depends on Python set iteration order), so only the score is modelled. -/

/-- `set(normalized emails) & set(normalized emails)` is non-empty. -/
def emailOverlap (c1 c2 : VCardContact) : Bool :=
  c1.get_normalized_emails.any (fun e => c2.get_normalized_emails.contains e)

/-- Some pair of phones satisfies `phones_match` (the source's double loop
breaks at the first hit, which only affects the reason text). -/
def phoneMatchExists (c1 c2 : VCardContact) : Bool :=
  c1.get_normalized_phones.any (fun p1 =>
    c2.get_normalized_phones.any (fun p2 => (phones_match p1 p2).1))

/-- `org.lower().strip()`. -/
def orgKey (s : String) : String :=
  ⟨pyStrip (lowerStr s).data⟩

/-- `int(sim * 30)` for `sim = 2M/T`: exactly `⌊60M/T⌋`. -/
def simPoints (s1 s2 : String) : Nat :=
  (60 * seqM s1 s2) / seqT s1 s2

def calculate_match_confidence (c1 c2 : VCardContact) : Nat :=
  let score := 0
  let score := score + (if emailOverlap c1 c2 then 50 else 0)
  let score := score + (if phoneMatchExists c1 c2 then 40 else 0)
  let p1 := c1.get_parsed_name
  let p2 := c2.get_parsed_name
  let score := score +
    (if p1.2.2 ≠ "" ∧ p2.2.2 ≠ "" ∧ p1.2.2 = p2.2.2 then 50
     else
       let cf1 := get_canonical_first_name p1.1
       let cf2 := get_canonical_first_name p2.1
       if p1.2.1 = p2.2.1 ∧ cf1 = cf2 then 45
       else if p1.2.1 ≠ "" ∧ p2.2.1 ≠ "" ∧ soundex p1.2.1 = soundex p2.2.1 then
         (if p1.1 = p2.1 ∨ cf1 = cf2 then 35 else 0)
       else if p1.2.2 ≠ "" ∧ p2.2.2 ≠ "" then
         (if simGT08 p1.2.2 p2.2.2 then simPoints p1.2.2 p2.2.2 else 0)
       else 0)
  let score := score +
    (if c1.org ≠ "" ∧ c2.org ≠ "" then
       (if orgKey c1.org = orgKey c2.org then 10
        else if simGT08 (orgKey c1.org) (orgKey c2.org) then 5 else 0)
     else 0)
  min score 100

/-! ## C3: the name-scoring rule chain -/

/-- Email category contribution. -/
def emailScore (c1 c2 : VCardContact) : Nat :=
  if emailOverlap c1 c2 then 50 else 0

/-- Phone category contribution. -/
def phoneScore (c1 c2 : VCardContact) : Nat :=
  if phoneMatchExists c1 c2 then 40 else 0

/-- The name category as the code actually computes it (the amended C3):
+50 for equal non-empty canonicals; else +45 when last names are equal and
nickname-resolved first names are equal; else, when both last names are
non-empty and their Soundex codes match, +35 if (first names equal or
resolved first names equal) and otherwise 0 — the similarity rule is NOT
consulted in that case; else, when both canonicals are non-empty and
similarity exceeds 0.8, `floor(sim * 30)`. -/
def nameScore (c1 c2 : VCardContact) : Nat :=
  let p1 := c1.get_parsed_name
  let p2 := c2.get_parsed_name
  let cf1 := get_canonical_first_name p1.1
  let cf2 := get_canonical_first_name p2.1
  if p1.2.2 ≠ "" ∧ p2.2.2 ≠ "" ∧ p1.2.2 = p2.2.2 then 50
  else if p1.2.1 = p2.2.1 ∧ cf1 = cf2 then 45
  else if p1.2.1 ≠ "" ∧ p2.2.1 ≠ "" ∧ soundex p1.2.1 = soundex p2.2.1 then
    (if p1.1 = p2.1 ∨ cf1 = cf2 then 35 else 0)
  else if p1.2.2 ≠ "" ∧ p2.2.2 ≠ "" then
    (if simGT08 p1.2.2 p2.2.2 then simPoints p1.2.2 p2.2.2 else 0)
  else 0

/-- Organization category contribution. -/
def orgScore (c1 c2 : VCardContact) : Nat :=
  if c1.org ≠ "" ∧ c2.org ≠ "" then
    (if orgKey c1.org = orgKey c2.org then 10
     else if simGT08 (orgKey c1.org) (orgKey c2.org) then 5 else 0)
  else 0

/-- The name rules under the claim's "first applicable rule" reading: the
Soundex rule is applicable only when the first-name condition also holds,
and otherwise the similarity rule is consulted. -/
def c3ClaimNameScore (c1 c2 : VCardContact) : Nat :=
  let p1 := c1.get_parsed_name
  let p2 := c2.get_parsed_name
  let cf1 := get_canonical_first_name p1.1
  let cf2 := get_canonical_first_name p2.1
  if p1.2.2 ≠ "" ∧ p2.2.2 ≠ "" ∧ p1.2.2 = p2.2.2 then 50
  else if p1.2.1 = p2.2.1 ∧ cf1 = cf2 then 45
  else if p1.2.1 ≠ "" ∧ p2.2.1 ≠ "" ∧ soundex p1.2.1 = soundex p2.2.1 ∧
      (p1.1 = p2.1 ∨ cf1 = cf2) then 35
  else if p1.2.2 ≠ "" ∧ p2.2.2 ≠ "" ∧ simGT08 p1.2.2 p2.2.2 = true then
    simPoints p1.2.2 p2.2.2
  else 0

def danaContact : VCardContact := { fn := "Dana Smith" }

def daneContact : VCardContact := { fn := "Dane Smith" }

/-- C3 counterexample: for `"Dana Smith"` vs `"Dane Smith"` the last names
agree (so their Soundex codes match) but neither first-name condition
holds, and canonical similarity is 0.9 > 0.8.  Under the claim's
first-applicable-rule reading the name category contributes
`floor(0.9 * 30) = 27`, but the code awards 0 and never consults the
similarity rule, so the total scores differ. -/
theorem c3_counterexample :
    calculate_match_confidence danaContact daneContact ≠
      min (emailScore danaContact daneContact + phoneScore danaContact daneContact +
        c3ClaimNameScore danaContact daneContact + orgScore danaContact daneContact) 100 ∧
    calculate_match_confidence danaContact daneContact = 0 ∧
    c3ClaimNameScore danaContact daneContact = 27 := by
  refine ⟨by decide, by decide, by decide⟩

/-- C3 (amended): the final score is the capped sum of the four category
contributions, with the name category computed by the code's guard
structure (`nameScore`): the Soundex branch is guarded by the code-match
condition alone and swallows the similarity fallback.  The result is an
integer in `[0, 100]`. -/
theorem c3_match_confidence_amended (c1 c2 : VCardContact) :
    calculate_match_confidence c1 c2 =
      min (emailScore c1 c2 + phoneScore c1 c2 + nameScore c1 c2 + orgScore c1 c2) 100 ∧
    calculate_match_confidence c1 c2 ≤ 100 := by
  constructor
  · unfold calculate_match_confidence emailScore phoneScore nameScore orgScore
    simp [Nat.zero_add, Nat.add_assoc]
  · unfold calculate_match_confidence
    exact Nat.min_le_right _ _

/-- Witness for the amended C3 at a concrete pair: two contacts with the
same canonical name score exactly `min(50, 100) = 50`. -/
theorem c3_match_confidence_witness :
    calculate_match_confidence { fn := "John Smith" } { fn := "Smith, John" } =
      min (emailScore { fn := "John Smith" } { fn := "Smith, John" } +
        phoneScore { fn := "John Smith" } { fn := "Smith, John" } +
        nameScore { fn := "John Smith" } { fn := "Smith, John" } +
        orgScore { fn := "John Smith" } { fn := "Smith, John" }) 100 :=
  (c3_match_confidence_amended { fn := "John Smith" } { fn := "Smith, John" }).1


/-! ## Merging (`merge_contacts`) -/

/-- Lexicographic code-point comparison of character lists (Python `<` on
strings). -/
def charListLt : List Char → List Char → Bool
  | [], [] => false
  | [], _ :: _ => true
  | _ :: _, [] => false
  | a :: as, b :: bs => if a < b then true else if b < a then false else charListLt as bs

def strLtB (a b : String) : Bool :=
  charListLt a.data b.data

def insertSortedStr (x : String) : List String → List String
  | [] => [x]
  | y :: ys => if strLtB y x then y :: insertSortedStr x ys else x :: y :: ys

/-- `sorted(...)` over distinct strings. -/
def sortStrs (l : List String) : List String :=
  l.foldl (fun acc x => insertSortedStr x acc) []

/-- `', '.join(...)`. -/
def joinCommaSpace : List String → String
  | [] => ""
  | [x] => x
  | x :: xs => x ++ ", " ++ joinCommaSpace xs

/-- Number of whitespace-delimited words of a display name. -/
def wordCount (s : String) : Nat :=
  (splitWs s.data).length

/-- The best-name selection loop of `merge_contacts`: most words wins,
ties broken by raw character length, first maximal element kept. -/
def bestNameStep (best : String) (c : VCardContact) : String :=
  if c.fn ≠ "" then
    let cw := wordCount c.fn
    let bw := if best ≠ "" then wordCount best else 0
    if cw > bw then c.fn
    else if cw = bw ∧ c.fn.length > best.length then c.fn
    else best
  else best

/-- One contact's contribution to the merge accumulator: fill empty
single-valued fields, append unseen emails (case-insensitive),
phones (dedup on normalized form, empty normals dropped), addresses and
notes (exact dedup), and record the source file. -/
def mergeStep (st : VCardContact × List String) (c : VCardContact) :
    VCardContact × List String :=
  let m := st.1
  let srcs := if c.source_file ≠ "" ∧ c.source_file ∉ st.2
              then st.2 ++ [c.source_file] else st.2
  let m := { m with
    org := if m.org = "" ∧ c.org ≠ "" then c.org else m.org
    title := if m.title = "" ∧ c.title ≠ "" then c.title else m.title
    birthday := if m.birthday = "" ∧ c.birthday ≠ "" then c.birthday else m.birthday
    url := if m.url = "" ∧ c.url ≠ "" then c.url else m.url
    emails := c.emails.foldl (fun acc e =>
      if (acc.map lowerStr).contains (lowerStr e) then acc else acc ++ [e]) m.emails
    phones := c.phones.foldl (fun acc p =>
      let np := normalize_phone p
      if np ≠ "" ∧ ¬ (acc.map normalize_phone).contains np then acc ++ [p] else acc)
      m.phones
    addresses := c.addresses.foldl (fun acc a =>
      if a ∉ acc then acc ++ [a] else acc) m.addresses
    notes := c.notes.foldl (fun acc n =>
      if n ∉ acc then acc ++ [n] else acc) m.notes }
  (m, srcs)

/-- `merge_contacts` from the source; `None` on an empty list. -/
def merge_contacts (contacts : List VCardContact) : Option VCardContact :=
  match contacts with
  | [] => none
  | c0 :: _ =>
    let best_name := contacts.foldl bestNameStep ""
    let merged0 : VCardContact :=
      { fn := if best_name ≠ "" then best_name else c0.fn
        n_parts := if c0.n_parts ≠ [] then c0.n_parts else []
        org := c0.org
        title := c0.title
        birthday := c0.birthday
        url := c0.url }
    let st := contacts.foldl mergeStep (merged0, [])
    let merged := st.1
    let merged := if merged.fn ≠ ""
                  then { merged with fn := normalize_display_name merged.fn }
                  else merged
    let merged := if st.2 ≠ []
                  then { merged with source_file := joinCommaSpace (sortStrs st.2) }
                  else merged
    some merged


/-! ## C9: the merged display name -/

/-- The spec's description of display-name selection: most
whitespace-delimited words, ties broken by greater raw character length,
first maximal name kept. -/
def bestDisplayStep (best : String) (c : VCardContact) : String :=
  if wordCount c.fn > wordCount best then c.fn
  else if wordCount c.fn = wordCount best ∧ c.fn.length > best.length then c.fn
  else best

def bestDisplayName (cs : List VCardContact) : String :=
  cs.foldl bestDisplayStep ""

theorem wordCount_empty : wordCount "" = 0 := rfl

theorem bestNameStep_eq (b : String) (c : VCardContact) :
    bestNameStep b c = bestDisplayStep b c := by
  by_cases hfn : c.fn = ""
  · simp [bestNameStep, bestDisplayStep, hfn, wordCount_empty]
  · by_cases hb : b = ""
    · simp [bestNameStep, bestDisplayStep, hfn, hb, wordCount_empty]
    · simp [bestNameStep, bestDisplayStep, hfn, hb]


/-- `b` dominates `x` in the (word count, length) order used for display
names. -/
def keyGe (b x : String) : Prop :=
  wordCount x < wordCount b ∨ (wordCount x = wordCount b ∧ x.length ≤ b.length)

theorem keyGe_refl (x : String) : keyGe x x :=
  Or.inr ⟨rfl, Nat.le_refl _⟩

theorem keyGe_trans {a b c : String} (h1 : keyGe a b) (h2 : keyGe b c) : keyGe a c := by
  unfold keyGe at *
  omega

theorem bestDisplayStep_ge_left (b : String) (c : VCardContact) :
    keyGe (bestDisplayStep b c) b := by
  unfold bestDisplayStep keyGe
  split
  · omega
  · split
    · omega
    · omega

theorem bestDisplayStep_ge_right (b : String) (c : VCardContact) :
    keyGe (bestDisplayStep b c) c.fn := by
  unfold bestDisplayStep keyGe
  split
  · omega
  · split
    · omega
    · omega

theorem bestDisplayStep_cases (b : String) (c : VCardContact) :
    bestDisplayStep b c = b ∨ bestDisplayStep b c = c.fn := by
  unfold bestDisplayStep
  split
  · right; rfl
  · split
    · right; rfl
    · left; rfl

theorem foldBest_ge_init (cs : List VCardContact) :
    ∀ b0 : String, keyGe (cs.foldl bestDisplayStep b0) b0 := by
  induction cs with
  | nil => intro b0; exact keyGe_refl b0
  | cons c cs ih =>
    intro b0
    exact keyGe_trans (ih (bestDisplayStep b0 c)) (bestDisplayStep_ge_left b0 c)

theorem foldBest_ge_mem (cs : List VCardContact) :
    ∀ b0 : String, ∀ c ∈ cs, keyGe (cs.foldl bestDisplayStep b0) c.fn := by
  induction cs with
  | nil => intro b0 c hc; simp at hc
  | cons d cs ih =>
    intro b0 c hc
    rcases List.mem_cons.mp hc with rfl | hc
    · exact keyGe_trans (foldBest_ge_init cs (bestDisplayStep b0 c))
        (bestDisplayStep_ge_right b0 c)
    · exact ih (bestDisplayStep b0 d) c hc

theorem foldBest_mem (cs : List VCardContact) :
    ∀ b0 : String, cs.foldl bestDisplayStep b0 ∈ cs.map (·.fn) ∨
      cs.foldl bestDisplayStep b0 = b0 := by
  induction cs with
  | nil => intro b0; right; rfl
  | cons c cs ih =>
    intro b0
    rcases ih (bestDisplayStep b0 c) with h | h
    · left
      exact List.mem_cons_of_mem _ h
    · rcases bestDisplayStep_cases b0 c with h2 | h2
      · right
        rw [List.foldl_cons, h, h2]
      · left
        rw [List.foldl_cons, h, h2]
        exact List.mem_cons_self _ _

theorem length_zero_eq_empty {s : String} (h : s.length = 0) : s = "" := by
  have hd : s.data = [] := List.length_eq_zero.mp h
  rw [← mk_eta s, hd]

theorem bestDisplay_empty_all {cs : List VCardContact}
    (h : bestDisplayName cs = "") : ∀ c ∈ cs, c.fn = "" := by
  intro c hc
  have := foldBest_ge_mem cs "" c hc
  unfold bestDisplayName at h
  rw [h] at this
  unfold keyGe at this
  rw [wordCount_empty] at this
  have hzero : ("" : String).length = 0 := rfl
  rcases this with h1 | ⟨h1, h2⟩
  · omega
  · exact length_zero_eq_empty (by omega)

theorem mergeStep_fn (st : VCardContact × List String) (c : VCardContact) :
    (mergeStep st c).1.fn = st.1.fn := rfl

theorem foldMerge_fn (cs : List VCardContact) :
    ∀ st : VCardContact × List String,
      (cs.foldl mergeStep st).1.fn = st.1.fn := by
  induction cs with
  | nil => intro st; rfl
  | cons c cs ih =>
    intro st
    rw [List.foldl_cons, ih (mergeStep st c), mergeStep_fn]

/-- C9: merging a non-empty group produces a record whose display name is
the duplicate-word cleanup of the group member display name with the most
whitespace-delimited words (ties broken by greater raw character length):
that winner is one of the members' display names and dominates every
member in the (word count, length) order. -/
theorem c9_merge_display_name (cs : List VCardContact) (hne : cs ≠ []) :
    ∃ m, merge_contacts cs = some m ∧
      m.fn = normalize_display_name (bestDisplayName cs) ∧
      bestDisplayName cs ∈ cs.map (·.fn) ∧
      ∀ c ∈ cs, wordCount c.fn < wordCount (bestDisplayName cs) ∨
        (wordCount c.fn = wordCount (bestDisplayName cs) ∧
          c.fn.length ≤ (bestDisplayName cs).length) := by
  match cs, hne with
  | c0 :: rest, _ =>
    have hstep : bestNameStep = bestDisplayStep := by
      funext b c
      exact bestNameStep_eq b c
    have hBdef : (c0 :: rest).foldl bestNameStep "" = bestDisplayName (c0 :: rest) := by
      rw [hstep]
      rfl
    have hmem : bestDisplayName (c0 :: rest) ∈ (c0 :: rest).map (·.fn) := by
      rcases foldBest_mem (c0 :: rest) "" with h | h
      · exact h
      · have hall := bestDisplay_empty_all h
        rw [show bestDisplayName (c0 :: rest) = "" from h]
        exact List.mem_map.mpr ⟨c0, List.mem_cons_self _ _, hall c0 (List.mem_cons_self _ _)⟩
    refine ⟨_, rfl, ?_, hmem, fun c hc => foldBest_ge_mem (c0 :: rest) "" c hc⟩
    by_cases hB : bestDisplayName (c0 :: rest) = ""
    · have hc0 : c0.fn = "" := bestDisplay_empty_all hB c0
        (List.mem_cons_self _ _)
      rw [hBdef, hB]
      simp [hc0, foldMerge_fn, mergeStep_fn, apply_ite VCardContact.fn,
        normalize_display_name]
    · rw [hBdef]
      simp [hB, foldMerge_fn, mergeStep_fn, apply_ite VCardContact.fn]


/-- Witness for C9 at a concrete two-contact group. -/
theorem c9_merge_display_name_witness :
    ∃ m, merge_contacts [danaContact, daneContact] = some m ∧
      m.fn = normalize_display_name (bestDisplayName [danaContact, daneContact]) ∧
      bestDisplayName [danaContact, daneContact] ∈
        [danaContact, daneContact].map (·.fn) ∧
      ∀ c ∈ [danaContact, daneContact],
        wordCount c.fn < wordCount (bestDisplayName [danaContact, daneContact]) ∨
        (wordCount c.fn = wordCount (bestDisplayName [danaContact, daneContact]) ∧
          c.fn.length ≤ (bestDisplayName [danaContact, daneContact]).length) :=
  c9_merge_display_name [danaContact, daneContact] (by simp)

/-! ## Clustering (`find_similar_groups`) -/

/-- The six inverted indices of Phase 1, as insertion-ordered association
lists from key to the ascending list of contact indices. -/
structure Buckets where
  email : List (String × List Nat) := []
  phone : List (String × List Nat) := []
  name : List (String × List Nat) := []
  sdx : List (String × List Nat) := []
  canon : List (String × List Nat) := []
  nick : List (String × List Nat) := []

/-- `defaultdict(list)[k].append(i)`. -/
def bucketAdd (bs : List (String × List Nat)) (k : String) (i : Nat) :
    List (String × List Nat) :=
  if bs.any (fun p => p.1 == k) then
    bs.map (fun p => if p.1 == k then (p.1, p.2 ++ [i]) else p)
  else bs ++ [(k, [i])]

/-- Insert one contact into all applicable buckets (Phase 1 loop body). -/
def addContactBuckets (b : Buckets) (i : Nat) (c : VCardContact) : Buckets :=
  let b := c.get_normalized_emails.foldl
    (fun b e => if e ≠ "" then { b with email := bucketAdd b.email e i } else b) b
  let b := c.get_normalized_phones.foldl
    (fun b p =>
      let b := if p.length ≥ 7
               then { b with phone := bucketAdd b.phone ⟨lastChars 7 p.data⟩ i } else b
      if p.length ≥ 10
      then { b with phone := bucketAdd b.phone ⟨lastChars 10 p.data⟩ i } else b) b
  let pn := c.get_parsed_name
  let b := if pn.2.1 ≠ "" then
      let b := { b with name := bucketAdd b.name (lowerStr pn.2.1) i }
      if soundex pn.2.1 ≠ "" then { b with sdx := bucketAdd b.sdx (soundex pn.2.1) i }
      else b
    else b
  if pn.1 ≠ "" ∧ pn.2.1 ≠ "" then
    let b := { b with canon := bucketAdd b.canon (pn.1 ++ "_" ++ pn.2.1) i }
    let key2 := get_canonical_first_name pn.1 ++ "_" ++ pn.2.1
    let b := { b with nick := bucketAdd b.nick key2 i }
    if soundex pn.1 ≠ "" ∧ soundex pn.2.1 ≠ "" then
      { b with sdx := bucketAdd b.sdx (soundex pn.1 ++ "_" ++ soundex pn.2.1) i }
    else b
  else b

def buildBuckets (contacts : List VCardContact) : Buckets :=
  contacts.enum.foldl (fun b p => addContactBuckets b p.1 p.2) {}

/-- All `(min, max)` index pairs of one bucket, in the double-loop order of
the source. -/
def allPairs : List Nat → List (Nat × Nat)
  | [] => []
  | i :: rest => rest.map (fun j => (min i j, max i j)) ++ allPairs rest

/-- Union into the candidate set, keeping first-seen order. -/
def addPairs (acc : List (Nat × Nat)) (new : List (Nat × Nat)) : List (Nat × Nat) :=
  new.foldl (fun acc p => if p ∈ acc then acc else acc ++ [p]) acc

/-- Phase 2: candidate pairs from the buckets, with the source's size caps
(none for email/phone, 100 for name-text buckets, 50 for phonetic buckets),
in the source's bucket-family order. -/
def candidate_pairs (b : Buckets) : List (Nat × Nat) :=
  let acc := b.email.foldl
    (fun acc kv => if kv.2.length > 1 then addPairs acc (allPairs kv.2) else acc) []
  let acc := b.phone.foldl
    (fun acc kv => if kv.2.length > 1 then addPairs acc (allPairs kv.2) else acc) acc
  let acc := b.canon.foldl
    (fun acc kv => if 1 < kv.2.length ∧ kv.2.length ≤ 100
                   then addPairs acc (allPairs kv.2) else acc) acc
  let acc := b.nick.foldl
    (fun acc kv => if 1 < kv.2.length ∧ kv.2.length ≤ 100
                   then addPairs acc (allPairs kv.2) else acc) acc
  let acc := b.sdx.foldl
    (fun acc kv => if 1 < kv.2.length ∧ kv.2.length ≤ 50
                   then addPairs acc (allPairs kv.2) else acc) acc
  b.name.foldl
    (fun acc kv => if 1 < kv.2.length ∧ kv.2.length ≤ 100
                   then addPairs acc (allPairs kv.2) else acc) acc

/-- Phase 3: retain candidate pairs scoring at least 50 as undirected edges
`(i, j, confidence)`. -/
def match_edges (contacts : List VCardContact) (pairs : List (Nat × Nat)) :
    List (Nat × Nat × Nat) :=
  pairs.filterMap (fun p =>
    let conf := calculate_match_confidence (contacts.getD p.1 {}) (contacts.getD p.2 {})
    if conf ≥ 50 then some (p.1, p.2, conf) else none)

/-- The adjacency list of `match_graph`: for each edge, `(j, conf)` is
appended to vertex `i` and `(i, conf)` to vertex `j`, in edge order. -/
def adjOf (edges : List (Nat × Nat × Nat)) (v : Nat) : List (Nat × Nat) :=
  edges.foldl (fun acc e =>
    let acc := if e.1 = v then acc ++ [(e.2.1, e.2.2)] else acc
    if e.2.1 = v then acc ++ [(e.1, e.2.2)] else acc) []

/-- The BFS of Phase 4: pop the queue front, append the popped vertex to the
group, and enqueue unvisited neighbors (recording each discovery edge's
confidence).  The fuel only bounds the number of pops; since every queued
vertex is in `visited`, `visited` never shrinks and pops never exceed
enqueues, fuel `contacts.length` always suffices (proved below). -/
def bfsGo (adj : Nat → List (Nat × Nat)) :
    Nat → List Nat → List Nat → List Nat → List Nat →
    List Nat × List Nat × List Nat
  | 0, _, visited, g, cf => (g, cf, visited)
  | _ + 1, [], visited, g, cf => (g, cf, visited)
  | fuel + 1, cur :: rest, visited, g, cf =>
    let st := (adj cur).foldl
      (fun (st : List Nat × List Nat × List Nat) nb =>
        if nb.1 ∈ st.1 then st
        else (st.1 ++ [nb.1], st.2.1 ++ [nb.1], st.2.2 ++ [nb.2]))
      (visited, rest, cf)
    bfsGo adj fuel st.2.1 st.1 (g ++ [cur]) st.2.2

structure DupGroup where
  indices : List Nat
  confidence : Nat
deriving DecidableEq, Inhabited

/-- `int(avg)` of the discovered confidences, defaulting to 50. -/
def groupConfidence (confs : List Nat) : Nat :=
  if confs ≠ [] then (confs.foldl (· + ·) 0) / confs.length else 50

/-- Phase 4 loop body: start a BFS at every unprocessed vertex with at
least one edge; keep components with two or more members. -/
def groupStep (adj : Nat → List (Nat × Nat)) (n : Nat)
    (st : List DupGroup × List Nat) (start : Nat) : List DupGroup × List Nat :=
  if start ∈ st.2 ∨ adj start = [] then st
  else
    let r := bfsGo adj n [start] [start] [] []
    if r.1.length > 1 then
      (st.1 ++ [{ indices := r.1, confidence := groupConfidence r.2.1 }], st.2 ++ r.1)
    else (st.1, st.2 ++ r.1)

/-- Stable descending insertion by confidence (Python's stable sort with
`reverse=True`). -/
def insertGroupDesc (g : DupGroup) : List DupGroup → List DupGroup
  | [] => [g]
  | h :: t => if g.confidence > h.confidence then g :: h :: t
              else h :: insertGroupDesc g t

def sortGroupsDesc (l : List DupGroup) : List DupGroup :=
  l.foldl (fun acc g => insertGroupDesc g acc) []

/-- `find_similar_groups` from the source (ignoring the unused `threshold`
parameter and the progress callback, which only reports progress). -/
def find_similar_groups (contacts : List VCardContact) : List DupGroup :=
  let buckets := buildBuckets contacts
  let pairs := candidate_pairs buckets
  let edges := match_edges contacts pairs
  let adj := adjOf edges
  let res := (List.range contacts.length).foldl
    (groupStep adj contacts.length) ([], [])
  sortGroupsDesc res.1


/-! ## C5: behavior on empty input -/

/-- C5 counterexample: neither function fails fast on empty input.
`merge_contacts` silently returns the `None` sentinel and
`find_similar_groups` silently returns an empty group list (both are total
functions with no error channel). -/
theorem c5_counterexample :
    merge_contacts [] = none ∧ find_similar_groups [] = [] := by
  exact ⟨rfl, rfl⟩

/-- C5 (amended): on an empty pool the engine returns degenerate values
instead of raising: `find_similar_groups [] = []`, and `merge_contacts`
returns its `None` sentinel exactly on the empty list (every non-empty list
merges to `some` record). -/
theorem c5_empty_degenerate :
    find_similar_groups [] = [] ∧
    ∀ cs : List VCardContact, merge_contacts cs = none ↔ cs = [] := by
  refine ⟨rfl, ?_⟩
  intro cs
  cases cs with
  | nil => simp [merge_contacts]
  | cons c rest => simp [merge_contacts]


/-! ## C2: clustering invariants — helper lemmas -/

theorem nodup_lt_length_le {l : List Nat} {n : Nat} (h : l.Nodup)
    (hlt : ∀ x ∈ l, x < n) : l.length ≤ n := by
  have h1 : l.length = l.toFinset.card := (List.toFinset_card_of_nodup h).symm
  have h2 : l.toFinset ⊆ Finset.range n := by
    intro x hx
    rw [List.mem_toFinset] at hx
    rw [Finset.mem_range]
    exact hlt x hx
  rw [h1]
  calc l.toFinset.card ≤ (Finset.range n).card := Finset.card_le_card h2
    _ = n := Finset.card_range n

theorem nodup_same_mem_length {l1 l2 : List Nat} (h1 : l1.Nodup) (h2 : l2.Nodup)
    (hm : ∀ x, x ∈ l1 ↔ x ∈ l2) : l1.length = l2.length := by
  rw [← List.toFinset_card_of_nodup h1, ← List.toFinset_card_of_nodup h2]
  congr 1
  ext x
  simp only [List.mem_toFinset]
  exact hm x

theorem foldl_add_bounds {l : List Nat} {lo hi : Nat}
    (h : ∀ x ∈ l, lo ≤ x ∧ x ≤ hi) :
    ∀ acc, acc + lo * l.length ≤ l.foldl (· + ·) acc ∧
      l.foldl (· + ·) acc ≤ acc + hi * l.length := by
  induction l with
  | nil => intro acc; simp
  | cons x l ih =>
    intro acc
    have hx := h x (List.mem_cons_self x l)
    have := ih (fun y hy => h y (List.mem_cons_of_mem x hy)) (acc + x)
    simp only [List.foldl_cons, List.length_cons]
    constructor
    · have : acc + x + lo * l.length ≤ List.foldl (· + ·) (acc + x) l := this.1
      calc acc + lo * (l.length + 1) = acc + lo * l.length + lo := by ring
        _ ≤ acc + x + lo * l.length := by omega
        _ ≤ _ := this
    · have h2 : List.foldl (· + ·) (acc + x) l ≤ acc + x + hi * l.length := this.2
      calc List.foldl (· + ·) (acc + x) l ≤ acc + x + hi * l.length := h2
        _ ≤ acc + hi * (l.length + 1) := by
          have : x ≤ hi := hx.2
          calc acc + x + hi * l.length ≤ acc + hi + hi * l.length := by omega
            _ = acc + hi * (l.length + 1) := by ring

/-- `groupConfidence` of a list of `[50,100]` confidences is in `[50,100]`. -/
theorem groupConfidence_bounds {confs : List Nat}
    (h : ∀ x ∈ confs, 50 ≤ x ∧ x ≤ 100) :
    50 ≤ groupConfidence confs ∧ groupConfidence confs ≤ 100 := by
  unfold groupConfidence
  by_cases hne : confs = []
  · simp [hne]
  · rw [if_pos hne]
    have hlen : 0 < confs.length := List.length_pos.mpr hne
    have hb := foldl_add_bounds h 0
    simp only [Nat.zero_add] at hb
    constructor
    · rw [Nat.le_div_iff_mul_le hlen]
      exact hb.1
    · have h2 : confs.foldl (· + ·) 0 ≤ 100 * confs.length := hb.2
      have h3 : confs.foldl (· + ·) 0 / confs.length ≤ 100 * confs.length / confs.length :=
        Nat.div_le_div_right h2
      rw [Nat.mul_div_cancel _ hlen] at h3
      exact h3

/-- `adjOf` as a flat map, for membership reasoning. -/
def adjEntry (v : Nat) (e : Nat × Nat × Nat) : List (Nat × Nat) :=
  (if e.1 = v then [(e.2.1, e.2.2)] else []) ++ (if e.2.1 = v then [(e.1, e.2.2)] else [])

theorem adjOf_eq_bind (edges : List (Nat × Nat × Nat)) (v : Nat) :
    adjOf edges v = edges.flatMap (adjEntry v) := by
  suffices h : ∀ acc, edges.foldl (fun acc e =>
      let acc := if e.1 = v then acc ++ [(e.2.1, e.2.2)] else acc
      if e.2.1 = v then acc ++ [(e.1, e.2.2)] else acc) acc
      = acc ++ edges.flatMap (adjEntry v) by
    have := h []
    simpa [adjOf] using this
  induction edges with
  | nil => intro acc; simp
  | cons e es ih =>
    intro acc
    rw [List.foldl_cons, ih]
    simp only [List.flatMap_cons]
    have hstep : (let acc := if e.1 = v then acc ++ [(e.2.1, e.2.2)] else acc
        if e.2.1 = v then acc ++ [(e.1, e.2.2)] else acc) = acc ++ adjEntry v e := by
      unfold adjEntry
      by_cases h1 : e.1 = v <;> by_cases h2 : e.2.1 = v <;> simp [h1, h2]
    rw [hstep, List.append_assoc]

theorem mem_adjOf {edges : List (Nat × Nat × Nat)} {v : Nat} {nb : Nat × Nat}
    (h : nb ∈ adjOf edges v) :
    ∃ e ∈ edges, (e.1 = v ∧ nb = (e.2.1, e.2.2)) ∨ (e.2.1 = v ∧ nb = (e.1, e.2.2)) := by
  rw [adjOf_eq_bind] at h
  rcases List.mem_flatMap.mp h with ⟨e, he, hmem⟩
  refine ⟨e, he, ?_⟩
  unfold adjEntry at hmem
  rcases List.mem_append.mp hmem with h1 | h1
  · split at h1
    · simp at h1
      left
      exact ⟨by assumption, by rw [h1]⟩
    · simp at h1
  · split at h1
    · simp at h1
      right
      exact ⟨by assumption, by rw [h1]⟩
    · simp at h1

theorem adjOf_mem_of_edge {edges : List (Nat × Nat × Nat)} {e : Nat × Nat × Nat}
    (he : e ∈ edges) :
    (e.2.1, e.2.2) ∈ adjOf edges e.1 ∧ (e.1, e.2.2) ∈ adjOf edges e.2.1 := by
  constructor
  · rw [adjOf_eq_bind]
    apply List.mem_flatMap.mpr
    refine ⟨e, he, ?_⟩
    unfold adjEntry
    simp
  · rw [adjOf_eq_bind]
    apply List.mem_flatMap.mpr
    refine ⟨e, he, ?_⟩
    unfold adjEntry
    by_cases h1 : e.1 = e.2.1 <;> simp [h1]

/-- Symmetry of the match graph: every adjacency entry has a reverse
entry (with the same confidence). -/
theorem adjOf_symm {edges : List (Nat × Nat × Nat)} {v : Nat} {nb : Nat × Nat}
    (h : nb ∈ adjOf edges v) : (v, nb.2) ∈ adjOf edges nb.1 := by
  rcases mem_adjOf h with ⟨e, he, ⟨h1, h2⟩ | ⟨h1, h2⟩⟩
  · have := (adjOf_mem_of_edge he).2
    subst h2
    subst h1
    exact this
  · have := (adjOf_mem_of_edge he).1
    subst h2
    subst h1
    exact this


/-! ### Index bounds: every bucket, pair and edge index is `< contacts.length` -/

def BLt (bs : List (String × List Nat)) (n : Nat) : Prop :=
  ∀ kv ∈ bs, ∀ j ∈ kv.2, j < n

def BucketsLt (b : Buckets) (n : Nat) : Prop :=
  BLt b.email n ∧ BLt b.phone n ∧ BLt b.name n ∧ BLt b.sdx n ∧ BLt b.canon n ∧ BLt b.nick n

theorem bucketAdd_blt {bs : List (String × List Nat)} {k : String} {i n : Nat}
    (h : BLt bs n) (hi : i < n) : BLt (bucketAdd bs k i) n := by
  intro kv hkv j hj
  unfold bucketAdd at hkv
  split at hkv
  · rcases List.mem_map.mp hkv with ⟨p, hp, hpe⟩
    by_cases hk : p.1 == k
    · rw [if_pos hk] at hpe
      rw [← hpe] at hj
      rcases List.mem_append.mp hj with h1 | h1
      · exact h p hp j h1
      · simp at h1
        omega
    · rw [if_neg hk] at hpe
      rw [← hpe] at hj
      exact h p hp j hj
  · rcases List.mem_append.mp hkv with h1 | h1
    · exact h kv h1 j hj
    · simp at h1
      rw [h1] at hj
      simp at hj
      omega

theorem foldl_preserves_mem {α β : Type} (P : β → Prop) {step : β → α → β} :
    ∀ {l : List α}, (∀ b a, a ∈ l → P b → P (step b a)) →
    ∀ {b : β}, P b → P (l.foldl step b) := by
  intro l
  induction l with
  | nil => intro _ b hb; exact hb
  | cons a t ih =>
    intro hstep b hb
    rw [List.foldl_cons]
    exact ih (fun b x hx hb => hstep b x (List.mem_cons_of_mem a hx) hb)
      (hstep b a (List.mem_cons_self a t) hb)

theorem blt_email {b : Buckets} {n : Nat} {X : List (String × List Nat)}
    (h : BucketsLt b n) (hX : BLt X n) : BucketsLt { b with email := X } n :=
  ⟨hX, h.2.1, h.2.2.1, h.2.2.2.1, h.2.2.2.2.1, h.2.2.2.2.2⟩

theorem blt_phone {b : Buckets} {n : Nat} {X : List (String × List Nat)}
    (h : BucketsLt b n) (hX : BLt X n) : BucketsLt { b with phone := X } n :=
  ⟨h.1, hX, h.2.2.1, h.2.2.2.1, h.2.2.2.2.1, h.2.2.2.2.2⟩

theorem blt_name {b : Buckets} {n : Nat} {X : List (String × List Nat)}
    (h : BucketsLt b n) (hX : BLt X n) : BucketsLt { b with name := X } n :=
  ⟨h.1, h.2.1, hX, h.2.2.2.1, h.2.2.2.2.1, h.2.2.2.2.2⟩

theorem blt_sdx {b : Buckets} {n : Nat} {X : List (String × List Nat)}
    (h : BucketsLt b n) (hX : BLt X n) : BucketsLt { b with sdx := X } n :=
  ⟨h.1, h.2.1, h.2.2.1, hX, h.2.2.2.2.1, h.2.2.2.2.2⟩

theorem blt_canon {b : Buckets} {n : Nat} {X : List (String × List Nat)}
    (h : BucketsLt b n) (hX : BLt X n) : BucketsLt { b with canon := X } n :=
  ⟨h.1, h.2.1, h.2.2.1, h.2.2.2.1, hX, h.2.2.2.2.2⟩

theorem blt_nick {b : Buckets} {n : Nat} {X : List (String × List Nat)}
    (h : BucketsLt b n) (hX : BLt X n) : BucketsLt { b with nick := X } n :=
  ⟨h.1, h.2.1, h.2.2.1, h.2.2.2.1, h.2.2.2.2.1, hX⟩

/-- The four phases of `addContactBuckets`, named for compositional proofs. -/
def bPhase1 (i : Nat) (c : VCardContact) (b : Buckets) : Buckets :=
  c.get_normalized_emails.foldl
    (fun b e => if e ≠ "" then { b with email := bucketAdd b.email e i } else b) b

def bPhase2 (i : Nat) (c : VCardContact) (b : Buckets) : Buckets :=
  c.get_normalized_phones.foldl
    (fun b p =>
      let b := if p.length ≥ 7
               then { b with phone := bucketAdd b.phone ⟨lastChars 7 p.data⟩ i } else b
      if p.length ≥ 10
      then { b with phone := bucketAdd b.phone ⟨lastChars 10 p.data⟩ i } else b) b

def bPhase3 (i : Nat) (c : VCardContact) (b : Buckets) : Buckets :=
  let pn := c.get_parsed_name
  if pn.2.1 ≠ "" then
    let b := { b with name := bucketAdd b.name (lowerStr pn.2.1) i }
    if soundex pn.2.1 ≠ "" then { b with sdx := bucketAdd b.sdx (soundex pn.2.1) i }
    else b
  else b

def bPhase4 (i : Nat) (c : VCardContact) (b : Buckets) : Buckets :=
  let pn := c.get_parsed_name
  if pn.1 ≠ "" ∧ pn.2.1 ≠ "" then
    let b := { b with canon := bucketAdd b.canon (pn.1 ++ "_" ++ pn.2.1) i }
    let b := { b with nick := bucketAdd b.nick (get_canonical_first_name pn.1 ++ "_" ++ pn.2.1) i }
    if soundex pn.1 ≠ "" ∧ soundex pn.2.1 ≠ "" then
      { b with sdx := bucketAdd b.sdx (soundex pn.1 ++ "_" ++ soundex pn.2.1) i }
    else b
  else b

theorem addContactBuckets_eq (b : Buckets) (i : Nat) (c : VCardContact) :
    addContactBuckets b i c = bPhase4 i c (bPhase3 i c (bPhase2 i c (bPhase1 i c b))) := rfl

theorem bPhase1_blt {i n : Nat} {c : VCardContact} {b : Buckets}
    (h : BucketsLt b n) (hi : i < n) : BucketsLt (bPhase1 i c b) n := by
  unfold bPhase1
  refine foldl_preserves_mem (fun b => BucketsLt b n) (fun b e _ hb => ?_) h
  by_cases he : e ≠ ""
  · rw [if_pos he]
    exact blt_email hb (bucketAdd_blt hb.1 hi)
  · rw [if_neg he]
    exact hb

theorem bPhase2_blt {i n : Nat} {c : VCardContact} {b : Buckets}
    (h : BucketsLt b n) (hi : i < n) : BucketsLt (bPhase2 i c b) n := by
  unfold bPhase2
  refine foldl_preserves_mem (fun b => BucketsLt b n) (fun b p _ hb => ?_) h
  dsimp only
  by_cases h7 : p.length ≥ 7
  · rw [if_pos h7]
    have hb7 : BucketsLt { b with phone := bucketAdd b.phone ⟨lastChars 7 p.data⟩ i } n :=
      blt_phone hb (bucketAdd_blt hb.2.1 hi)
    by_cases h10 : p.length ≥ 10
    · rw [if_pos h10]
      exact blt_phone hb7 (bucketAdd_blt hb7.2.1 hi)
    · rw [if_neg h10]
      exact hb7
  · rw [if_neg h7]
    by_cases h10 : p.length ≥ 10
    · rw [if_pos h10]
      exact blt_phone hb (bucketAdd_blt hb.2.1 hi)
    · rw [if_neg h10]
      exact hb

theorem bPhase3_blt {i n : Nat} {c : VCardContact} {b : Buckets}
    (h : BucketsLt b n) (hi : i < n) : BucketsLt (bPhase3 i c b) n := by
  unfold bPhase3
  dsimp only
  by_cases hln : c.get_parsed_name.2.1 ≠ ""
  · rw [if_pos hln]
    have hname : BucketsLt
        { b with name := bucketAdd b.name (lowerStr c.get_parsed_name.2.1) i } n :=
      blt_name h (bucketAdd_blt h.2.2.1 hi)
    by_cases hsx : soundex c.get_parsed_name.2.1 ≠ ""
    · rw [if_pos hsx]
      exact blt_sdx hname (bucketAdd_blt hname.2.2.2.1 hi)
    · rw [if_neg hsx]
      exact hname
  · rw [if_neg hln]
    exact h

theorem bPhase4_blt {i n : Nat} {c : VCardContact} {b : Buckets}
    (h : BucketsLt b n) (hi : i < n) : BucketsLt (bPhase4 i c b) n := by
  unfold bPhase4
  dsimp only
  by_cases hfl : c.get_parsed_name.1 ≠ "" ∧ c.get_parsed_name.2.1 ≠ ""
  · rw [if_pos hfl]
    have hcanon : BucketsLt
        { b with canon := bucketAdd b.canon (c.get_parsed_name.1 ++ "_" ++ c.get_parsed_name.2.1) i }
        n :=
      blt_canon h (bucketAdd_blt h.2.2.2.2.1 hi)
    have hnick : BucketsLt
        { email := b.email, phone := b.phone, name := b.name, sdx := b.sdx,
          canon := bucketAdd b.canon (c.get_parsed_name.1 ++ "_" ++ c.get_parsed_name.2.1) i,
          nick := bucketAdd b.nick (get_canonical_first_name c.get_parsed_name.1 ++ "_" ++ c.get_parsed_name.2.1) i }
        n :=
      blt_nick hcanon (bucketAdd_blt hcanon.2.2.2.2.2 hi)
    by_cases hsx : soundex c.get_parsed_name.1 ≠ "" ∧ soundex c.get_parsed_name.2.1 ≠ ""
    · rw [if_pos hsx]
      exact blt_sdx hnick (bucketAdd_blt hnick.2.2.2.1 hi)
    · rw [if_neg hsx]
      exact hnick
  · rw [if_neg hfl]
    exact h

theorem addContactBuckets_blt {b : Buckets} {i n : Nat} {c : VCardContact}
    (h : BucketsLt b n) (hi : i < n) : BucketsLt (addContactBuckets b i c) n := by
  rw [addContactBuckets_eq]
  exact bPhase4_blt (bPhase3_blt (bPhase2_blt (bPhase1_blt h hi) hi) hi) hi

theorem buildBuckets_blt (contacts : List VCardContact) :
    BucketsLt (buildBuckets contacts) contacts.length := by
  unfold buildBuckets
  refine foldl_preserves_mem (fun b => BucketsLt b contacts.length)
    (fun b p hp hb => ?_) ?_
  · exact addContactBuckets_blt hb (List.fst_lt_of_mem_enum hp)
  · exact ⟨fun kv h => absurd h (List.not_mem_nil kv), fun kv h => absurd h (List.not_mem_nil kv),
      fun kv h => absurd h (List.not_mem_nil kv), fun kv h => absurd h (List.not_mem_nil kv),
      fun kv h => absurd h (List.not_mem_nil kv), fun kv h => absurd h (List.not_mem_nil kv)⟩


def PairsLt (ps : List (Nat × Nat)) (n : Nat) : Prop :=
  ∀ p ∈ ps, p.1 < n ∧ p.2 < n

theorem allPairs_lt {l : List Nat} {n : Nat} (h : ∀ i ∈ l, i < n) :
    PairsLt (allPairs l) n := by
  induction l with
  | nil => intro p hp; simp [allPairs] at hp
  | cons i rest ih =>
    intro p hp
    unfold allPairs at hp
    rcases List.mem_append.mp hp with h1 | h1
    · rcases List.mem_map.mp h1 with ⟨j, hj, hje⟩
      have hi := h i (List.mem_cons_self i rest)
      have hjn := h j (List.mem_cons_of_mem i hj)
      rw [← hje]
      constructor
      · simp only [min_def]
        split <;> omega
      · simp only [max_def]
        split <;> omega
    · exact ih (fun x hx => h x (List.mem_cons_of_mem i hx)) p h1

theorem addPairs_lt {acc new : List (Nat × Nat)} {n : Nat}
    (h1 : PairsLt acc n) (h2 : PairsLt new n) : PairsLt (addPairs acc new) n := by
  unfold addPairs
  refine foldl_preserves_mem (fun acc => PairsLt acc n) (fun acc p hp hacc => ?_) h1
  by_cases hin : p ∈ acc
  · rw [if_pos hin]
    exact hacc
  · rw [if_neg hin]
    intro q hq
    rcases List.mem_append.mp hq with hq1 | hq1
    · exact hacc q hq1
    · simp at hq1
      rw [hq1]
      exact h2 p hp

theorem foldCand_lt {bs : List (String × List Nat)} {n : Nat} (hb : BLt bs n)
    (P : String × List Nat → Prop) [DecidablePred P] {acc : List (Nat × Nat)}
    (hacc : PairsLt acc n) :
    PairsLt (bs.foldl
      (fun acc kv => if P kv then addPairs acc (allPairs kv.2) else acc) acc) n := by
  refine foldl_preserves_mem (fun acc => PairsLt acc n) (fun acc kv hkv ha => ?_) hacc
  by_cases hP : P kv
  · rw [if_pos hP]
    exact addPairs_lt ha (allPairs_lt (hb kv hkv))
  · rw [if_neg hP]
    exact ha

theorem candidate_pairs_lt {b : Buckets} {n : Nat} (h : BucketsLt b n) :
    PairsLt (candidate_pairs b) n := by
  unfold candidate_pairs
  refine foldCand_lt h.2.2.1 _ ?_
  refine foldCand_lt h.2.2.2.1 _ ?_
  refine foldCand_lt h.2.2.2.2.2 _ ?_
  refine foldCand_lt h.2.2.2.2.1 _ ?_
  refine foldCand_lt h.2.1 _ ?_
  refine foldCand_lt h.1 _ ?_
  intro p hp
  simp at hp

/-- The confidence score is capped at 100 by the final `min`. -/
theorem calcConf_le_100 (c1 c2 : VCardContact) :
    calculate_match_confidence c1 c2 ≤ 100 := by
  unfold calculate_match_confidence
  exact Nat.min_le_right _ _

def EdgesOk (edges : List (Nat × Nat × Nat)) (n : Nat) : Prop :=
  ∀ e ∈ edges, e.1 < n ∧ e.2.1 < n ∧ 50 ≤ e.2.2 ∧ e.2.2 ≤ 100

theorem match_edges_ok {contacts : List VCardContact} {pairs : List (Nat × Nat)}
    (hp : PairsLt pairs contacts.length) :
    EdgesOk (match_edges contacts pairs) contacts.length := by
  intro e he
  unfold match_edges at he
  rcases List.mem_filterMap.mp he with ⟨p, hpm, hsome⟩
  dsimp only at hsome
  split at hsome
  · rcases Option.some_inj.mp hsome with rfl
    refine ⟨(hp p hpm).1, (hp p hpm).2, by assumption, calcConf_le_100 _ _⟩
  · exact absurd hsome (Option.noConfusion)

/-- Adjacency entries of the match graph: target in range, confidence in
`[50, 100]`. -/
theorem adjOf_ok {edges : List (Nat × Nat × Nat)} {n : Nat} (h : EdgesOk edges n)
    {v : Nat} {nb : Nat × Nat} (hnb : nb ∈ adjOf edges v) :
    nb.1 < n ∧ 50 ≤ nb.2 ∧ nb.2 ≤ 100 := by
  rcases mem_adjOf hnb with ⟨e, he, ⟨h1, h2⟩ | ⟨h1, h2⟩⟩
  · rcases h e he with ⟨ha, hb2, hc, hd⟩
    rw [h2]
    exact ⟨hb2, hc, hd⟩
  · rcases h e he with ⟨ha, hb2, hc, hd⟩
    rw [h2]
    exact ⟨ha, hc, hd⟩


/-! ### BFS invariants -/

/-- One neighbor-processing step of the BFS (the inner fold of `bfsGo`). -/
def bfsStep (st : List Nat × List Nat × List Nat) (nb : Nat × Nat) :
    List Nat × List Nat × List Nat :=
  if nb.1 ∈ st.1 then st
  else (st.1 ++ [nb.1], st.2.1 ++ [nb.1], st.2.2 ++ [nb.2])

theorem bfsGo_cons (adj : Nat → List (Nat × Nat)) (fuel cur : Nat)
    (rest visited g cf : List Nat) :
    bfsGo adj (fuel + 1) (cur :: rest) visited g cf =
      bfsGo adj fuel ((adj cur).foldl bfsStep (visited, rest, cf)).2.1
        ((adj cur).foldl bfsStep (visited, rest, cf)).1 (g ++ [cur])
        ((adj cur).foldl bfsStep (visited, rest, cf)).2.2 := rfl

/-- Invariant of the inner fold: `st = (visited, queue, confs)`, `gc` the
vertices popped so far (including the current one). -/
def BfsInv (n : Nat) (processed gc : List Nat)
    (st : List Nat × List Nat × List Nat) : Prop :=
  (∀ v ∈ st.2.1, v ∈ st.1) ∧
  st.1.Nodup ∧
  (∀ v ∈ st.1, v < n) ∧
  (gc ++ st.2.1).Nodup ∧
  (∀ v, v ∈ st.1 ↔ v ∈ gc ++ st.2.1) ∧
  (∀ v ∈ st.1, v ∉ processed) ∧
  (∀ x ∈ st.2.2, 50 ≤ x ∧ x ≤ 100)

theorem bfsInner_spec {adj : Nat → List (Nat × Nat)} {n : Nat}
    {processed : List Nat} {cur : Nat} {gc : List Nat}
    (hadj_lt : ∀ nb ∈ adj cur, nb.1 < n)
    (hadj_cf : ∀ nb ∈ adj cur, 50 ≤ nb.2 ∧ nb.2 ≤ 100)
    (hadj_sym : ∀ nb ∈ adj cur, ∃ d, (cur, d) ∈ adj nb.1)
    (hproc_closed : ∀ v ∈ processed, ∀ nb ∈ adj v, nb.1 ∈ processed)
    (hcur : cur ∈ gc) :
    ∀ (L : List (Nat × Nat)) (st : List Nat × List Nat × List Nat),
    (∀ nb ∈ L, nb ∈ adj cur) →
    BfsInv n processed gc st →
    BfsInv n processed gc (L.foldl bfsStep st) ∧
    (∀ nb ∈ L, nb.1 ∈ (L.foldl bfsStep st).1) ∧
    (∀ v ∈ st.1, v ∈ (L.foldl bfsStep st).1) := by
  intro L
  induction L with
  | nil =>
    intro st _ hInv
    exact ⟨hInv, fun nb hnb => absurd hnb (List.not_mem_nil nb), fun v hv => hv⟩
  | cons nb L ih =>
    intro st hL hInv
    rw [List.foldl_cons]
    have hnbadj : nb ∈ adj cur := hL nb (List.mem_cons_self nb L)
    have hL2 : ∀ x ∈ L, x ∈ adj cur := fun x hx => hL x (List.mem_cons_of_mem nb hx)
    by_cases hmem : nb.1 ∈ st.1
    · have hstep : bfsStep st nb = st := by
        unfold bfsStep
        rw [if_pos hmem]
      rw [hstep]
      rcases ih st hL2 hInv with ⟨h1, h2, h3⟩
      refine ⟨h1, ?_, h3⟩
      intro x hx
      rcases List.mem_cons.mp hx with heq | hx2
      · rw [heq]
        exact h3 nb.1 hmem
      · exact h2 x hx2
    · have hstep : bfsStep st nb =
          (st.1 ++ [nb.1], st.2.1 ++ [nb.1], st.2.2 ++ [nb.2]) := by
        unfold bfsStep
        rw [if_neg hmem]
      rw [hstep]
      rcases hInv with ⟨hqv, hnd, hlt, hgnd, hiff, hp, hcf⟩
      have hnotgq : nb.1 ∉ gc ++ st.2.1 := fun hc => hmem ((hiff nb.1).mpr hc)
      have hInv2 : BfsInv n processed gc
          (st.1 ++ [nb.1], st.2.1 ++ [nb.1], st.2.2 ++ [nb.2]) := by
        refine ⟨?_, ?_, ?_, ?_, ?_, ?_, ?_⟩
        · intro v hv
          rcases List.mem_append.mp hv with h1 | h1
          · exact List.mem_append.mpr (Or.inl (hqv v h1))
          · exact List.mem_append.mpr (Or.inr h1)
        · refine hnd.append (List.nodup_singleton _) ?_
          intro a ha hb
          simp at hb
          rw [hb] at ha
          exact hmem ha
        · intro v hv
          rcases List.mem_append.mp hv with h1 | h1
          · exact hlt v h1
          · simp at h1
            rw [h1]
            exact hadj_lt nb hnbadj
        · rw [← List.append_assoc]
          refine hgnd.append (List.nodup_singleton _) ?_
          intro a ha hb
          simp at hb
          rw [hb] at ha
          exact hnotgq ha
        · intro v
          have hv := hiff v
          simp only [List.mem_append, List.mem_singleton] at hv ⊢
          tauto
        · intro v hv
          rcases List.mem_append.mp hv with h1 | h1
          · exact hp v h1
          · simp at h1
            rw [h1]
            intro hP
            rcases hadj_sym nb hnbadj with ⟨d, hd⟩
            have hcp : cur ∈ processed := hproc_closed nb.1 hP (cur, d) hd
            have hcv : cur ∈ st.1 := (hiff cur).mpr (List.mem_append.mpr (Or.inl hcur))
            exact hp cur hcv hcp
        · intro x hx
          rcases List.mem_append.mp hx with h1 | h1
          · exact hcf x h1
          · simp at h1
            rw [h1]
            exact hadj_cf nb hnbadj
      rcases ih _ hL2 hInv2 with ⟨h1, h2, h3⟩
      refine ⟨h1, ?_, ?_⟩
      · intro x hx
        rcases List.mem_cons.mp hx with heq | hx2
        · rw [heq]
          exact h3 nb.1 (by simp)
        · exact h2 x hx2
      · intro v hv
        exact h3 v (List.mem_append.mpr (Or.inl hv))


/-- What one completed BFS guarantees: the produced group `R.1` lists
exactly the final visited set `R.2.2` without duplicates, all indices are
in range and unprocessed, the set is closed under adjacency, and every
recorded confidence is in `[50, 100]`. -/
def BfsPost (adj : Nat → List (Nat × Nat)) (n : Nat)
    (processed visited g : List Nat)
    (R : List Nat × List Nat × List Nat) : Prop :=
  R.1.Nodup ∧
  (∀ v, v ∈ R.1 ↔ v ∈ R.2.2) ∧
  (∀ v ∈ R.1, v < n) ∧
  (∀ v ∈ R.1, v ∉ processed) ∧
  (∀ v ∈ R.1, ∀ nb ∈ adj v, nb.1 ∈ R.2.2) ∧
  (∀ x ∈ R.2.1, 50 ≤ x ∧ x ≤ 100) ∧
  (∀ v ∈ g, v ∈ R.1) ∧
  (∀ v ∈ visited, v ∈ R.2.2)

theorem bfsGo_spec {adj : Nat → List (Nat × Nat)} {n : Nat} {processed : List Nat}
    (hadj_lt : ∀ v, ∀ nb ∈ adj v, nb.1 < n)
    (hadj_cf : ∀ v, ∀ nb ∈ adj v, 50 ≤ nb.2 ∧ nb.2 ≤ 100)
    (hadj_sym : ∀ v, ∀ nb ∈ adj v, (v, nb.2) ∈ adj nb.1)
    (hproc_closed : ∀ v ∈ processed, ∀ nb ∈ adj v, nb.1 ∈ processed) :
    ∀ (fuel : Nat) (queue visited g cf : List Nat),
    (∀ v ∈ queue, v ∈ visited) →
    visited.Nodup →
    (∀ v ∈ visited, v < n) →
    (g ++ queue).Nodup →
    (∀ v, v ∈ visited ↔ v ∈ g ++ queue) →
    (∀ v ∈ g, ∀ nb ∈ adj v, nb.1 ∈ visited) →
    (∀ v ∈ visited, v ∉ processed) →
    (∀ x ∈ cf, 50 ≤ x ∧ x ≤ 100) →
    queue.length + (n - visited.length) ≤ fuel →
    BfsPost adj n processed visited g (bfsGo adj fuel queue visited g cf) := by
  intro fuel
  induction fuel with
  | zero =>
    intro queue visited g cf hqv hnd hlt hgnd hiff hclo hp hcf hfuel
    have hq0 : queue = [] := by
      have : queue.length = 0 := by omega
      exact List.length_eq_zero.mp this
    subst hq0
    rw [List.append_nil] at hgnd hiff
    refine ⟨hgnd, ?_, ?_, ?_, ?_, hcf, fun v hv => hv, fun v hv => hv⟩
    · intro v
      exact ⟨fun hv => (hiff v).mpr hv, fun hv => (hiff v).mp hv⟩
    · intro v hv
      exact hlt v ((hiff v).mpr hv)
    · intro v hv
      exact hp v ((hiff v).mpr hv)
    · intro v hv nb hnb
      exact hclo v hv nb hnb
  | succ fuel ih =>
    intro queue visited g cf hqv hnd hlt hgnd hiff hclo hp hcf hfuel
    cases queue with
    | nil =>
      rw [List.append_nil] at hgnd hiff
      refine ⟨hgnd, ?_, ?_, ?_, ?_, hcf, fun v hv => hv, fun v hv => hv⟩
      · intro v
        exact ⟨fun hv => (hiff v).mpr hv, fun hv => (hiff v).mp hv⟩
      · intro v hv
        exact hlt v ((hiff v).mpr hv)
      · intro v hv
        exact hp v ((hiff v).mpr hv)
      · intro v hv nb hnb
        exact hclo v hv nb hnb
    | cons cur rest =>
      rw [bfsGo_cons]
      have hInv0 : BfsInv n processed (g ++ [cur]) (visited, rest, cf) := by
        refine ⟨?_, hnd, hlt, ?_, ?_, hp, hcf⟩
        · intro v hv
          exact hqv v (List.mem_cons_of_mem cur hv)
        · rw [List.append_assoc, List.singleton_append]
          exact hgnd
        · intro v
          rw [List.append_assoc, List.singleton_append]
          exact hiff v
      have hcur_gc : cur ∈ g ++ [cur] := List.mem_append.mpr (Or.inr (by simp))
      rcases bfsInner_spec (hadj_lt cur) (hadj_cf cur)
          (fun nb hnb => ⟨nb.2, hadj_sym cur nb hnb⟩) hproc_closed hcur_gc
          (adj cur) (visited, rest, cf) (fun nb hnb => hnb) hInv0 with
        ⟨hInv1, hnbr, hmono⟩
      rcases hInv1 with ⟨hqv1, hnd1, hlt1, hgnd1, hiff1, hp1, hcf1⟩
      have hclo1 : ∀ v ∈ g ++ [cur], ∀ nb ∈ adj v,
          nb.1 ∈ ((adj cur).foldl bfsStep (visited, rest, cf)).1 := by
        intro v hv nb hnb
        rcases List.mem_append.mp hv with h1 | h1
        · exact hmono nb.1 (hclo v h1 nb hnb)
        · simp at h1
          rw [h1] at hnb
          exact hnbr nb hnb
      have hlen_vis : visited.length = (g ++ cur :: rest).length :=
        nodup_same_mem_length hnd hgnd hiff
      have hlen1 : ((adj cur).foldl bfsStep (visited, rest, cf)).1.length =
          ((g ++ [cur]) ++ ((adj cur).foldl bfsStep (visited, rest, cf)).2.1).length :=
        nodup_same_mem_length hnd1 hgnd1 hiff1
      have hle1 : ((adj cur).foldl bfsStep (visited, rest, cf)).1.length ≤ n :=
        nodup_lt_length_le hnd1 hlt1
      have hfuel1 : ((adj cur).foldl bfsStep (visited, rest, cf)).2.1.length +
          (n - ((adj cur).foldl bfsStep (visited, rest, cf)).1.length) ≤ fuel := by
        simp only [List.length_append, List.length_cons, List.length_nil,
          List.length_singleton] at hlen_vis hlen1 hfuel
        omega
      have hres := ih ((adj cur).foldl bfsStep (visited, rest, cf)).2.1
        ((adj cur).foldl bfsStep (visited, rest, cf)).1 (g ++ [cur])
        ((adj cur).foldl bfsStep (visited, rest, cf)).2.2
        hqv1 hnd1 hlt1 hgnd1 hiff1 hclo1 hp1 hcf1 hfuel1
      rcases hres with ⟨r1, r2, r3, r4, r5, r6, r7, r8⟩
      refine ⟨r1, r2, r3, r4, r5, r6, ?_, ?_⟩
      · intro v hv
        exact r7 v (List.mem_append.mpr (Or.inl hv))
      · intro v hv
        exact r8 v (hmono v hv)


/-- Invariant carried by the Phase-4 fold over start vertices. -/
def GroupsInv (adj : Nat → List (Nat × Nat)) (st : List DupGroup × List Nat) : Prop :=
  (∀ gp ∈ st.1, gp.indices.Nodup ∧ 2 ≤ gp.indices.length ∧
    50 ≤ gp.confidence ∧ gp.confidence ≤ 100) ∧
  List.Pairwise (fun g1 g2 => ∀ i ∈ g1.indices, i ∉ g2.indices) st.1 ∧
  (∀ gp ∈ st.1, ∀ i ∈ gp.indices, i ∈ st.2) ∧
  (∀ v ∈ st.2, ∀ nb ∈ adj v, nb.1 ∈ st.2)

theorem groupStep_inv {adj : Nat → List (Nat × Nat)} {n : Nat}
    (hadj_lt : ∀ v, ∀ nb ∈ adj v, nb.1 < n)
    (hadj_cf : ∀ v, ∀ nb ∈ adj v, 50 ≤ nb.2 ∧ nb.2 ≤ 100)
    (hadj_sym : ∀ v, ∀ nb ∈ adj v, (v, nb.2) ∈ adj nb.1)
    {st : List DupGroup × List Nat} {start : Nat} (hstart : start < n)
    (h : GroupsInv adj st) : GroupsInv adj (groupStep adj n st start) := by
  unfold groupStep
  by_cases hg : start ∈ st.2 ∨ adj start = []
  · rw [if_pos hg]
    exact h
  · rw [if_neg hg]
    push_neg at hg
    rcases h with ⟨hgs, hpw, hsub, hclo⟩
    have hpost : BfsPost adj n st.2 [start] []
        (bfsGo adj n [start] [start] [] []) := by
      refine bfsGo_spec hadj_lt hadj_cf hadj_sym hclo n [start] [start] [] []
        (fun v hv => hv) (List.nodup_singleton start) ?_ (by simp) ?_
        (fun v hv => absurd hv (List.not_mem_nil v)) ?_
        (fun x hx => absurd hx (List.not_mem_nil x)) ?_
      · intro v hv
        simp at hv
        rw [hv]
        exact hstart
      · intro v
        simp
      · intro v hv
        simp at hv
        rw [hv]
        exact hg.1
      · simp
        omega
    rcases hpost with ⟨pnd, piff, plt, pnp, pclo, pcf, _, _⟩
    have hproc2 : ∀ v ∈ st.2 ++ (bfsGo adj n [start] [start] [] []).1,
        ∀ nb ∈ adj v, nb.1 ∈ st.2 ++ (bfsGo adj n [start] [start] [] []).1 := by
      intro v hv nb hnb
      rcases List.mem_append.mp hv with h1 | h1
      · exact List.mem_append.mpr (Or.inl (hclo v h1 nb hnb))
      · exact List.mem_append.mpr (Or.inr ((piff nb.1).mpr (pclo v h1 nb hnb)))
    dsimp only
    by_cases hlen : (bfsGo adj n [start] [start] [] []).1.length > 1
    · rw [if_pos hlen]
      refine ⟨?_, ?_, ?_, hproc2⟩
      · intro gp hgp
        rcases List.mem_append.mp hgp with h1 | h1
        · exact hgs gp h1
        · simp at h1
          rw [h1]
          rcases groupConfidence_bounds pcf with ⟨hc1, hc2⟩
          refine ⟨pnd, ?_, hc1, hc2⟩
          dsimp only
          omega
      · rw [List.pairwise_append]
        refine ⟨hpw, List.pairwise_singleton _ _, ?_⟩
        intro g1 hg1 g2 hg2 i hi
        simp at hg2
        rw [hg2]
        dsimp only
        intro hi2
        exact pnp i hi2 (hsub g1 hg1 i hi)
      · intro gp hgp i hi
        rcases List.mem_append.mp hgp with h1 | h1
        · exact List.mem_append.mpr (Or.inl (hsub gp h1 i hi))
        · simp at h1
          rw [h1] at hi
          exact List.mem_append.mpr (Or.inr hi)
    · rw [if_neg hlen]
      refine ⟨hgs, hpw, ?_, hproc2⟩
      intro gp hgp i hi
      exact List.mem_append.mpr (Or.inl (hsub gp hgp i hi))

theorem insertGroupDesc_perm (g : DupGroup) (l : List DupGroup) :
    List.Perm (insertGroupDesc g l) (g :: l) := by
  induction l with
  | nil => exact List.Perm.refl _
  | cons h t ih =>
    unfold insertGroupDesc
    by_cases hc : g.confidence > h.confidence
    · rw [if_pos hc]
    · rw [if_neg hc]
      exact (List.Perm.cons h ih).trans (List.Perm.swap g h t)

theorem sortGroupsDesc_perm (l : List DupGroup) :
    List.Perm (sortGroupsDesc l) l := by
  suffices hgen : ∀ acc, List.Perm
      (l.foldl (fun acc g => insertGroupDesc g acc) acc) (l ++ acc) by
    have := hgen []
    rw [List.append_nil] at this
    exact this
  induction l with
  | nil => intro acc; exact List.Perm.refl _
  | cons a t ih =>
    intro acc
    rw [List.foldl_cons]
    refine ((ih (insertGroupDesc a acc)).trans ?_)
    have h1 : List.Perm (t ++ insertGroupDesc a acc) (t ++ (a :: acc)) :=
      List.Perm.append_left t (insertGroupDesc_perm a acc)
    refine h1.trans ?_
    rw [List.cons_append]
    exact List.perm_middle


/-- C2: for every input list of contacts, every group returned by
`find_similar_groups` has at least 2 member indices, no record index
appears in two different returned groups, and every group's confidence
lies within `[50, 100]`. -/
theorem c2_group_invariants (contacts : List VCardContact) :
    List.Pairwise (fun g1 g2 => ∀ i ∈ g1.indices, i ∉ g2.indices)
      (find_similar_groups contacts) ∧
    ∀ gp ∈ find_similar_groups contacts,
      2 ≤ gp.indices.length ∧ 50 ≤ gp.confidence ∧ gp.confidence ≤ 100 := by
  have hE : EdgesOk (match_edges contacts (candidate_pairs (buildBuckets contacts)))
      contacts.length :=
    match_edges_ok (candidate_pairs_lt (buildBuckets_blt contacts))
  have hadj_lt : ∀ v, ∀ nb ∈ adjOf
      (match_edges contacts (candidate_pairs (buildBuckets contacts))) v,
      nb.1 < contacts.length :=
    fun v nb hnb => (adjOf_ok hE hnb).1
  have hadj_cf : ∀ v, ∀ nb ∈ adjOf
      (match_edges contacts (candidate_pairs (buildBuckets contacts))) v,
      50 ≤ nb.2 ∧ nb.2 ≤ 100 :=
    fun v nb hnb => (adjOf_ok hE hnb).2
  have hadj_sym : ∀ v, ∀ nb ∈ adjOf
      (match_edges contacts (candidate_pairs (buildBuckets contacts))) v,
      (v, nb.2) ∈ adjOf
        (match_edges contacts (candidate_pairs (buildBuckets contacts))) nb.1 :=
    fun v nb hnb => adjOf_symm hnb
  have hinit : GroupsInv
      (adjOf (match_edges contacts (candidate_pairs (buildBuckets contacts))))
      ([], []) :=
    ⟨fun gp hgp => absurd hgp (List.not_mem_nil gp), List.Pairwise.nil,
      fun gp hgp => absurd hgp (List.not_mem_nil gp),
      fun v hv => absurd hv (List.not_mem_nil v)⟩
  have hres : GroupsInv
      (adjOf (match_edges contacts (candidate_pairs (buildBuckets contacts))))
      ((List.range contacts.length).foldl
        (groupStep (adjOf (match_edges contacts (candidate_pairs (buildBuckets contacts))))
          contacts.length) ([], [])) := by
    refine foldl_preserves_mem (fun st => GroupsInv
      (adjOf (match_edges contacts (candidate_pairs (buildBuckets contacts)))) st)
      (fun st start hmem hst => ?_) hinit
    exact groupStep_inv hadj_lt hadj_cf hadj_sym (List.mem_range.mp hmem) hst
  rcases hres with ⟨hgs, hpw, _, _⟩
  have hfsg : find_similar_groups contacts = sortGroupsDesc
      ((List.range contacts.length).foldl
        (groupStep (adjOf (match_edges contacts (candidate_pairs (buildBuckets contacts))))
          contacts.length) ([], [])).1 := rfl
  have hperm := sortGroupsDesc_perm
    ((List.range contacts.length).foldl
      (groupStep (adjOf (match_edges contacts (candidate_pairs (buildBuckets contacts))))
        contacts.length) ([], [])).1
  constructor
  · rw [hfsg]
    refine (List.Perm.pairwise_iff ?_ hperm).mpr hpw
    intro g1 g2 h12 i hi2 hi1
    exact h12 i hi1 hi2
  · intro gp hgp
    rw [hfsg] at hgp
    have hmem : gp ∈ ((List.range contacts.length).foldl
        (groupStep (adjOf (match_edges contacts (candidate_pairs (buildBuckets contacts))))
          contacts.length) ([], [])).1 :=
      hperm.mem_iff.mp hgp
    exact (hgs gp hmem).2


/-! ## C4: order sensitivity of clustering -/

theorem phones_match_fst_symm (p q : String) :
    (phones_match p q).1 = (phones_match q p).1 := by
  unfold phones_match
  dsimp only
  by_cases h1 : normalize_phone p = ""
  · by_cases h2 : normalize_phone q = "" <;> simp [h1, h2]
  · by_cases h2 : normalize_phone q = ""
    · simp [h1, h2]
    · simp only [h1, h2]
      by_cases ha : 10 ≤ (normalize_phone p).length <;>
        by_cases hb : 10 ≤ (normalize_phone q).length <;>
        by_cases hc : normalize_phone p = normalize_phone q <;>
        by_cases hd : 7 ≤ (normalize_phone p).length <;>
        by_cases he : 7 ≤ (normalize_phone q).length <;>
        by_cases hf : lastChars 7 (normalize_phone p).data =
          lastChars 7 (normalize_phone q).data <;>
        simp [ha, hb, hc, hd, he, hf, eq_comm]

theorem emailOverlap_symm (c1 c2 : VCardContact) :
    emailOverlap c1 c2 = emailOverlap c2 c1 := by
  unfold emailOverlap
  rw [Bool.eq_iff_iff]
  simp only [List.any_eq_true]
  exact ⟨fun ⟨e, ha, hb⟩ => ⟨e, List.elem_iff.mp hb, List.elem_iff.mpr ha⟩,
    fun ⟨e, ha, hb⟩ => ⟨e, List.elem_iff.mp hb, List.elem_iff.mpr ha⟩⟩

theorem phoneMatchExists_symm (c1 c2 : VCardContact) :
    phoneMatchExists c1 c2 = phoneMatchExists c2 c1 := by
  unfold phoneMatchExists
  rw [Bool.eq_iff_iff]
  simp only [List.any_eq_true]
  constructor
  · rintro ⟨p1, h1, p2, h2, hm⟩
    refine ⟨p2, h2, p1, h1, ?_⟩
    rw [← phones_match_fst_symm]
    exact hm
  · rintro ⟨p2, h2, p1, h1, hm⟩
    refine ⟨p1, h1, p2, h2, ?_⟩
    rw [← phones_match_fst_symm]
    exact hm


/-- C4 (amended): outside the two SequenceMatcher-similarity rules the
confidence scorer is symmetric in its two arguments — whenever the
similarity primitives agree on both argument orders, swapping the
contacts does not change the score. -/
theorem c4_perm_invariance_amended (A B : VCardContact)
    (h1 : simGT08 A.get_parsed_name.2.2 B.get_parsed_name.2.2 =
          simGT08 B.get_parsed_name.2.2 A.get_parsed_name.2.2)
    (h2 : simPoints A.get_parsed_name.2.2 B.get_parsed_name.2.2 =
          simPoints B.get_parsed_name.2.2 A.get_parsed_name.2.2)
    (h3 : simGT08 (orgKey A.org) (orgKey B.org) =
          simGT08 (orgKey B.org) (orgKey A.org)) :
    calculate_match_confidence A B = calculate_match_confidence B A := by
  unfold calculate_match_confidence
  dsimp only
  rw [emailOverlap_symm A B, phoneMatchExists_symm A B, h1, h2, h3]
  refine congrArg (fun s => min s 100) (congrArg₂ (· + ·) (congrArg₂ (· + ·) rfl ?_) ?_)
  · by_cases r1 : A.get_parsed_name.2.2 ≠ "" ∧ B.get_parsed_name.2.2 ≠ "" ∧
        A.get_parsed_name.2.2 = B.get_parsed_name.2.2
    · have r1' : B.get_parsed_name.2.2 ≠ "" ∧ A.get_parsed_name.2.2 ≠ "" ∧
          B.get_parsed_name.2.2 = A.get_parsed_name.2.2 :=
        ⟨r1.2.1, r1.1, r1.2.2.symm⟩
      rw [if_pos r1, if_pos r1']
    · have r1' : ¬(B.get_parsed_name.2.2 ≠ "" ∧ A.get_parsed_name.2.2 ≠ "" ∧
          B.get_parsed_name.2.2 = A.get_parsed_name.2.2) :=
        fun h => r1 ⟨h.2.1, h.1, h.2.2.symm⟩
      rw [if_neg r1, if_neg r1']
      by_cases r2 : A.get_parsed_name.2.1 = B.get_parsed_name.2.1 ∧
          get_canonical_first_name A.get_parsed_name.1 =
            get_canonical_first_name B.get_parsed_name.1
      · have r2' : B.get_parsed_name.2.1 = A.get_parsed_name.2.1 ∧
            get_canonical_first_name B.get_parsed_name.1 =
              get_canonical_first_name A.get_parsed_name.1 :=
          ⟨r2.1.symm, r2.2.symm⟩
        rw [if_pos r2, if_pos r2']
      · have r2' : ¬(B.get_parsed_name.2.1 = A.get_parsed_name.2.1 ∧
            get_canonical_first_name B.get_parsed_name.1 =
              get_canonical_first_name A.get_parsed_name.1) :=
          fun h => r2 ⟨h.1.symm, h.2.symm⟩
        rw [if_neg r2, if_neg r2']
        by_cases r3 : A.get_parsed_name.2.1 ≠ "" ∧ B.get_parsed_name.2.1 ≠ "" ∧
            soundex A.get_parsed_name.2.1 = soundex B.get_parsed_name.2.1
        · have r3' : B.get_parsed_name.2.1 ≠ "" ∧ A.get_parsed_name.2.1 ≠ "" ∧
              soundex B.get_parsed_name.2.1 = soundex A.get_parsed_name.2.1 :=
            ⟨r3.2.1, r3.1, r3.2.2.symm⟩
          rw [if_pos r3, if_pos r3']
          by_cases r4 : A.get_parsed_name.1 = B.get_parsed_name.1 ∨
              get_canonical_first_name A.get_parsed_name.1 =
                get_canonical_first_name B.get_parsed_name.1
          · have r4' : B.get_parsed_name.1 = A.get_parsed_name.1 ∨
                get_canonical_first_name B.get_parsed_name.1 =
                  get_canonical_first_name A.get_parsed_name.1 :=
              r4.imp Eq.symm Eq.symm
            rw [if_pos r4, if_pos r4']
          · have r4' : ¬(B.get_parsed_name.1 = A.get_parsed_name.1 ∨
                get_canonical_first_name B.get_parsed_name.1 =
                  get_canonical_first_name A.get_parsed_name.1) :=
              fun h => r4 (h.imp Eq.symm Eq.symm)
            rw [if_neg r4, if_neg r4']
        · have r3' : ¬(B.get_parsed_name.2.1 ≠ "" ∧ A.get_parsed_name.2.1 ≠ "" ∧
              soundex B.get_parsed_name.2.1 = soundex A.get_parsed_name.2.1) :=
            fun h => r3 ⟨h.2.1, h.1, h.2.2.symm⟩
          rw [if_neg r3, if_neg r3']
          by_cases r5 : A.get_parsed_name.2.2 ≠ "" ∧ B.get_parsed_name.2.2 ≠ ""
          · have r5' : B.get_parsed_name.2.2 ≠ "" ∧ A.get_parsed_name.2.2 ≠ "" :=
              ⟨r5.2, r5.1⟩
            rw [if_pos r5, if_pos r5']
          · have r5' : ¬(B.get_parsed_name.2.2 ≠ "" ∧ A.get_parsed_name.2.2 ≠ "") :=
              fun h => r5 ⟨h.2, h.1⟩
            rw [if_neg r5, if_neg r5']
  · by_cases g1 : A.org ≠ "" ∧ B.org ≠ ""
    · have g1' : B.org ≠ "" ∧ A.org ≠ "" := ⟨g1.2, g1.1⟩
      rw [if_pos g1, if_pos g1']
      by_cases g2 : orgKey A.org = orgKey B.org
      · rw [if_pos g2, if_pos g2.symm]
      · have g2' : ¬orgKey B.org = orgKey A.org := fun h => g2 h.symm
        rw [if_neg g2, if_neg g2']
    · have g1' : ¬(B.org ≠ "" ∧ A.org ≠ "") := fun h => g1 ⟨h.2, h.1⟩
      rw [if_neg g1, if_neg g1']


def annLee : VCardContact := { fn := "Ann Lee" }

def anneLee : VCardContact := { fn := "Anne Lee" }

theorem c4_perm_invariance_witness :
    (simGT08 annLee.get_parsed_name.2.2 anneLee.get_parsed_name.2.2 =
      simGT08 anneLee.get_parsed_name.2.2 annLee.get_parsed_name.2.2) ∧
    calculate_match_confidence annLee anneLee =
      calculate_match_confidence anneLee annLee :=
  ⟨by decide,
    c4_perm_invariance_amended annLee anneLee (by decide) (by decide) (by decide)⟩

/-- Two single-name contacts sharing a phone number whose canonical names
make the similarity ratio order-asymmetric around the 0.8 threshold. -/
def simFlipA : VCardContact := { fn := "abaaa", phones := ["650-555-1234"] }

def simFlipB : VCardContact := { fn := "abbaaba", phones := ["650-555-1234"] }

/-- C4 counterexample: `[simFlipA, simFlipB]` and its reversal are
permutations of each other, yet clustering the first pool yields no groups
while clustering the second yields one group containing both records — the
set of groups viewed as sets of underlying contact records differs. -/
theorem c4_counterexample :
    List.Perm [simFlipA, simFlipB] [simFlipB, simFlipA] ∧
    (find_similar_groups [simFlipA, simFlipB]).map
      (fun g => g.indices.map (fun i => [simFlipA, simFlipB].getD i {})) = [] ∧
    (find_similar_groups [simFlipB, simFlipA]).map
      (fun g => g.indices.map (fun i => [simFlipB, simFlipA].getD i {})) =
      [[simFlipB, simFlipA]] :=
  ⟨List.Perm.swap simFlipB simFlipA [], by decide, by decide⟩

end ContactDedup
